import Mathlib

/-!
# Verification of the Bokmål scheduling core

A shallow embedding of the scheduling engine of the Bokmål project manager:
`engine/date_utils.py` (working-day calendar arithmetic), `engine/wbs.py`
(WBS outline maintenance) and `engine/scheduler.py` (CPM forward/backward
pass, critical-path marking and summary rollup), together with theorems
settling the specified properties.

Modelling conventions:
* Calendar dates are integers counting days; day 0 is a Monday, so the
  Python `date.weekday()` (Monday = 0) becomes `d % 7`.  All date
  operations in the source (`+ timedelta(days=k)`, comparison,
  subtraction `.days`) are affine in this day count, so the embedding is
  exact up to the choice of epoch.  In the concrete scenarios below,
  day 0 stands for 2024-01-01 (a Monday).
* The `while` loops of `add_working_days` walk one day per iteration and
  terminate only when the calendar has a reachable working day; they are
  embedded with an explicit fuel that is a generous over-approximation of
  the number of days the Python loops scan.  For any calendar containing
  a working weekday (in particular the default Monday-Friday calendar)
  the fuel is sufficient and the embedding computes the same date.
* Python dictionaries keyed by task id become association lists with
  dict update semantics (`dictInsert` overwrites an existing key in
  place, otherwise appends).
* Task objects are mutable records reached through the `task_map` id
  dictionary; the scheduler's in-place mutations become pure list
  transformations that rewrite the list entry carrying the mutated id.
  The two views agree whenever task ids are unique, which the data model
  guarantees (ids are "unique, caller-assigned"); theorems that depend
  on this identification carry a `Nodup` hypothesis on the id list.
* `progress` (a Python float in [0, 100]) is modelled as a rational;
  the only claims touching it assert that it is left unchanged.
* Dependency `lag` is stored as a number of days; the scheduler applies
  `int(lag)` to it, and the data model describes it as a signed integer
  count of days, so it is modelled as an `Int`.
-/

namespace Bokmal

/-! ## Calendar / date math (`engine/date_utils.py`) -/

/-- `config.DEFAULT_WORKING_DAYS = [0, 1, 2, 3, 4]` (Monday-Friday). -/
def DEFAULT_WORKING_DAYS : List Int := [0, 1, 2, 3, 4]

/-- Python `d.weekday()` under the day-count model (Monday = 0). -/
def weekday (d : Int) : Int := d % 7

/-- `is_working_day`: the date's weekday is in `working_days` and the date
is not a holiday. -/
def is_working_day (d : Int) (working_days holidays : List Int) : Bool :=
  working_days.contains (weekday d) && !(holidays.contains d)

/-- The first `while` loop of `add_working_days`: advance one day per
iteration, decrementing `remaining` on working days, with explicit fuel
bounding the number of scanned days. -/
def addLoop (working_days holidays : List Int) : Int → Nat → Nat → Int
  | current, 0, _ => current
  | current, _ + 1, 0 => current
  | current, remaining + 1, fuel + 1 =>
    if is_working_day (current + 1) working_days holidays then
      addLoop working_days holidays (current + 1) remaining fuel
    else
      addLoop working_days holidays (current + 1) (remaining + 1) fuel

/-- The second `while` loop of `add_working_days`: advance to the next
working day on or after `current`. -/
def seekLoop (working_days holidays : List Int) : Int → Nat → Int
  | current, 0 => current
  | current, fuel + 1 =>
    if is_working_day current working_days holidays then current
    else seekLoop working_days holidays (current + 1) fuel

/-- Fuel that over-approximates the days scanned by both loops of
`add_working_days` for any calendar with a reachable working day. -/
def addFuel (days : Int) (holidays : List Int) : Nat :=
  7 * (days.toNat + holidays.length + 2)

/-- `add_working_days(start, days, working_days, holidays)`: for
`days <= 0` returns `start`; otherwise counts working days with the start
date as day 1 and finally lands on a working day. -/
def add_working_days (start : Int) (days : Int) (working_days holidays : List Int) : Int :=
  if days ≤ 0 then start
  else
    seekLoop working_days holidays
      (addLoop working_days holidays start (days - 1).toNat (addFuel days holidays))
      (addFuel days holidays)

/-- The loop of `count_working_days`, counting working days among the `n`
consecutive dates starting at `current`.  The Python loop runs exactly
`end - start + 1` iterations, so no fuel is needed. -/
def countLoop (working_days holidays : List Int) (current : Int) : Nat → Int
  | 0 => 0
  | n + 1 =>
    (if is_working_day current working_days holidays then 1 else 0) +
      countLoop working_days holidays (current + 1) n

/-- `count_working_days(start, end, ...)`: 0 if `start > end`, otherwise
the inclusive working-day count of `[start, end]` floored at 1. -/
def count_working_days (start e : Int) (working_days holidays : List Int) : Int :=
  if start > e then 0
  else max 1 (countLoop working_days holidays start ((e - start).toNat + 1))

/-! ## Data model (`models/task.py`, `models/dependency.py`) -/

/-- The task record, with the fields the engine reads or writes.  Optional
dates are `Option Int`; `progress` is rational (Python float). -/
structure Task where
  id : Int
  name : String := "New Task"
  start_date : Option Int := none
  end_date : Option Int := none
  duration : Int := 1
  progress : Rat := 0
  parent_id : Option Int := none
  wbs : String := ""
  wbs_level : Int := 0
  sort_order : Int := 0
  is_milestone : Bool := false
  is_summary : Bool := false
  constraint_type : Option String := none
  constraint_date : Option Int := none
  is_critical : Bool := false
  manual_scheduling : Bool := false
  baseline_start : Option Int := none
  baseline_end : Option Int := none
  baseline_duration : Option Int := none
  deriving DecidableEq, Repr

/-- A dependency edge `(predecessor_id, successor_id, dep_type, lag)`. -/
structure Dependency where
  predecessor_id : Int
  successor_id : Int
  dep_type : String := "FS"
  lag : Int := 0
  deriving DecidableEq, Repr

/-- The `task_map = {t.id: t for t in tasks}` dictionary: the last task
in the list with a given id wins, as with Python dict construction. -/
def taskMap (tasks : List Task) (tid : Int) : Option Task :=
  tasks.reverse.find? (fun t => t.id == tid)

/-- Both endpoints of the dependency resolve in `task_map`
(`dep.predecessor_id in task_map and dep.successor_id in task_map`). -/
def depResolvable (tasks : List Task) (d : Dependency) : Bool :=
  tasks.any (fun t => t.id == d.predecessor_id) &&
    tasks.any (fun t => t.id == d.successor_id)

/-- The `preds` adjacency entries for a successor id, in dependency-list
order: `(pred_task.id, dep_type, lag)`. -/
def predEntries (rdeps : List Dependency) (tid : Int) : List (Int × String × Int) :=
  (rdeps.filter (fun d => d.successor_id == tid)).map
    (fun d => (d.predecessor_id, d.dep_type, d.lag))

/-- The `succs` adjacency entries for a predecessor id, in dependency-list
order: `(succ_task.id, dep_type, lag)`. -/
def succEntries (rdeps : List Dependency) (tid : Int) : List (Int × String × Int) :=
  (rdeps.filter (fun d => d.predecessor_id == tid)).map
    (fun d => (d.successor_id, d.dep_type, d.lag))

/-! ## Dictionaries keyed by task id -/

/-- Association list with Python-dict update semantics. -/
abbrev DateDict := List (Int × Int)

/-- Dict assignment: overwrite the existing key in place, else append. -/
def dictInsert (m : DateDict) (k v : Int) : DateDict :=
  if m.any (fun p => p.1 == k) then m.map (fun p => if p.1 == k then (k, v) else p)
  else m ++ [(k, v)]

/-- Dict lookup, `m.get(k)`. -/
def dictGet? (m : DateDict) (k : Int) : Option Int :=
  (m.find? (fun p => p.1 == k)).map (fun p => p.2)

/-- Dict lookup with default, `m.get(k, dflt)`. -/
def dictGetD (m : DateDict) (k : Int) (dflt : Int) : Int :=
  (dictGet? m k).getD dflt

/-! ## Topological ordering (`Scheduler.schedule`, forward-pass DFS) -/

/-- The mutable state of the recursive `visit` closure: the `visited` set
and the post-order `topo_order` list. -/
structure DfsSt where
  visited : List Int
  topo : List Int
  deriving Repr

/-- The recursive `visit(task_id)` applied to a list of ids in turn: skip
a visited id, else mark it visited, visit its successors (at one less
fuel), then append it to the post-order list.  `fuel` bounds the
recursion depth; `tasks.length + 1` is always enough because each
productive nested call marks a fresh task id visited. -/
def visitMany (succsOf : Int → List Int) : Nat → List Int → DfsSt → DfsSt
  | 0, _, st => st
  | fuel + 1, l, st =>
    l.foldl (fun st tid =>
      if tid ∈ st.visited then st
      else
        let st1 := visitMany succsOf fuel (succsOf tid) ⟨tid :: st.visited, st.topo⟩
        ⟨st1.visited, st1.topo ++ [tid]⟩) st

/-- A single `visit(task_id)` call at the given recursion-depth fuel. -/
def visitF (succsOf : Int → List Int) (fuel : Nat) (st : DfsSt) (tid : Int) : DfsSt :=
  visitMany succsOf fuel [tid] st

/-- `for t in tasks: if not t.is_summary: visit(t.id)`. -/
def rootFold (succsOf : Int → List Int) (fuel : Nat) (tasks : List Task) (st : DfsSt) : DfsSt :=
  tasks.foldl (fun (st : DfsSt) (t : Task) =>
    if t.is_summary then st else visitF succsOf fuel st t.id) st

/-- The root traversal followed by `topo_order.reverse()`. -/
def topoForward (succsOf : Int → List Int) (fuel : Nat) (tasks : List Task) : List Int :=
  (rootFold succsOf fuel tasks ⟨[], []⟩).topo.reverse

/-! ## Forward pass (`Scheduler.schedule`, early dates) -/

/-- The `early_start` / `early_finish` dictionaries. -/
structure FwdMaps where
  es : DateDict
  ef : DateDict
  deriving Repr

/-- The per-dependency early-start candidate of the forward pass, for a
predecessor entry `(pid, dep_type, lag)`. -/
def fwdCandidate (wd hol : List Int) (ps : Int) (m : FwdMaps) (task : Task)
    (pe : Int × String × Int) : Int :=
  let pid := pe.1
  let dty := pe.2.1
  let lag_days := pe.2.2
  if dty = "FS" then add_working_days (dictGetD m.ef pid ps) (lag_days + 1) wd hol
  else if dty = "SS" then add_working_days (dictGetD m.es pid ps) lag_days wd hol
  else if dty = "FF" then
    let dur := max 1 task.duration
    let ef := add_working_days (dictGetD m.ef pid ps) lag_days wd hol
    if dur > 1 then add_working_days ef (-(dur - 1)) wd hol else ef
  else if dty = "SF" then add_working_days (dictGetD m.es pid ps) lag_days wd hol
  else ps

/-- `es = project_start` raised to the maximum predecessor candidate. -/
def earlyStartRaw (wd hol : List Int) (ps : Int) (m : FwdMaps) (task : Task)
    (pl : List (Int × String × Int)) : Int :=
  pl.foldl (fun es pe =>
    let candidate := fwdCandidate wd hol ps m task pe
    if candidate > es then candidate else es) ps

/-- SNET raises the early start to the constraint date if later; MSO
forces it to the constraint date; both only when a date is set. -/
def applyConstraint (task : Task) (es0 : Int) : Int :=
  match task.constraint_type, task.constraint_date with
  | some ct, some cd =>
    if ct = "SNET" then (if cd > es0 then cd else es0)
    else if ct = "MSO" then cd
    else es0
  | _, _ => es0

/-- The early start the forward pass records for an automatic task. -/
def fwdEsVal (wd hol : List Int) (ps : Int) (m : FwdMaps) (task : Task)
    (pl : List (Int × String × Int)) : Int :=
  applyConstraint task (earlyStartRaw wd hol ps m task pl)

/-- The early finish derived from an early start: the start itself for a
milestone, else `add_working_days(es, duration)`. -/
def fwdEfVal (wd hol : List Int) (task : Task) (es : Int) : Int :=
  if task.is_milestone then es else add_working_days es task.duration wd hol

/-- One iteration of the forward-pass loop for task id `tid`: manual
tasks copy their own `start_date`; automatic tasks take the maximum
predecessor candidate, apply the SNET / MSO constraint and derive the
early finish (`add_working_days(es, duration)`, or `es` for milestones). -/
def forwardStep (wd hol : List Int) (ps : Int) (taskOf : Int → Option Task)
    (predsOf : Int → List (Int × String × Int)) (m : FwdMaps) (tid : Int) : FwdMaps :=
  match taskOf tid with
  | none => m
  | some task =>
    if task.manual_scheduling then
      match task.start_date with
      | none => m
      | some sd =>
        { es := dictInsert m.es tid sd,
          ef := dictInsert m.ef tid (fwdEfVal wd hol task sd) }
    else
      let es1 := fwdEsVal wd hol ps m task (predsOf tid)
      { es := dictInsert m.es tid es1,
        ef := dictInsert m.ef tid (fwdEfVal wd hol task es1) }

/-- The forward pass: fold `forwardStep` over the topological order. -/
def runForward (wd hol : List Int) (ps : Int) (taskOf : Int → Option Task)
    (predsOf : Int → List (Int × String × Int)) (order : List Int) : FwdMaps :=
  order.foldl (forwardStep wd hol ps taskOf predsOf) ⟨[], []⟩

/-- The date-commit loop: every non-manual task in the topological order
gets `start_date = early_start.get(tid, ps)` and likewise for the end. -/
def applyDates (tasks : List Task) (order : List Int) (m : FwdMaps) (ps : Int) : List Task :=
  tasks.map fun t =>
    if order.contains t.id && !t.manual_scheduling then
      { t with start_date := some (dictGetD m.es t.id ps),
               end_date := some (dictGetD m.ef t.id ps) }
    else t

/-! ## Backward pass and critical marking -/

/-- The `late_finish` / `late_start` dictionaries. -/
structure BwdMaps where
  lf : DateDict
  ls : DateDict
  deriving Repr

/-- `project_end = max(early_finish.values()) if early_finish else ps`. -/
def projectEnd (ef : DateDict) (ps : Int) : Int :=
  match ef.map (fun p => p.2) with
  | [] => ps
  | v :: vs => vs.foldl max v

/-- One iteration of the backward-pass loop: late finish is the minimum
successor candidate (FS: successor late start minus `max 0 lag` calendar
days; SS: successor late start; otherwise successor late finish), and
late start subtracts the calendar-day span floored at one day. -/
def backwardStep (pe ps : Int) (succsOf : Int → List (Int × String × Int))
    (es ef : DateDict) (m : BwdMaps) (tid : Int) : BwdMaps :=
  let lf := (succsOf tid).foldl (fun lf se =>
    let sid := se.1
    let dty := se.2.1
    let lag_days := se.2.2
    let candidate :=
      if dty = "FS" then dictGetD m.ls sid pe - max 0 lag_days
      else if dty = "SS" then dictGetD m.ls sid pe
      else dictGetD m.lf sid pe
    if candidate < lf then candidate else lf) pe
  let duration_days := max 1 (dictGetD ef tid ps - dictGetD es tid ps)
  { lf := dictInsert m.lf tid lf,
    ls := dictInsert m.ls tid (lf - duration_days) }

/-- The critical-marking loop: every task in the topological order gets
`is_critical = (late_start - early_start <= 0)`. -/
def markCritical (tasks : List Task) (order : List Int) (es ls : DateDict) (ps : Int) :
    List Task :=
  tasks.map fun t =>
    if order.contains t.id then
      { t with is_critical := decide (dictGetD ls t.id ps - dictGetD es t.id ps ≤ 0) }
    else t

/-! ## Summary rollup (`Scheduler._rollup_summary_tasks`) -/

/-- Stable insertion keeping strictly-greater levels ahead, so that the
sort below reproduces Python's stable `sort(key=-wbs_level)`. -/
def insertByLevelDesc (t : Task) : List Task → List Task
  | [] => [t]
  | x :: xs => if x.wbs_level > t.wbs_level then x :: insertByLevelDesc t xs else t :: x :: xs

/-- Stable sort of the summary tasks by descending `wbs_level` (deepest
first).  A stable sort's output is unique, so this insertion sort yields
exactly the list Python's stable `list.sort` produces. -/
def sortByLevelDesc : List Task → List Task
  | [] => []
  | x :: xs => insertByLevelDesc x (sortByLevelDesc xs)

/-- `min` of a nonempty Python iterable, given as head and tail. -/
def listMin1 : Int → List Int → Int
  | a, [] => a
  | a, b :: rest => listMin1 (min a b) rest

/-- `max` of a nonempty Python iterable, given as head and tail. -/
def listMax1 : Int → List Int → Int
  | a, [] => a
  | a, b :: rest => listMax1 (max a b) rest

/-- In-place mutation of the (unique) task carrying id `tid`. -/
def updateTask (tasks : List Task) (tid : Int) (nt : Task) : List Task :=
  tasks.map fun t => if t.id == tid then nt else t

/-- The rolled-up summary record: dates from the direct children's min
start / max end, duration from `count_working_days`, duration-weighted
progress, and criticality if any child is critical. -/
def rollupNew (wd hol : List Int) (children : List Task) (summary : Task) : Task :=
  let child_starts := children.filterMap (fun c => c.start_date)
  let child_ends := children.filterMap (fun c => c.end_date)
  let s1 := match child_starts with
    | [] => summary
    | a :: rest => { summary with start_date := some (listMin1 a rest) }
  let s2 := match child_ends with
    | [] => s1
    | a :: rest => { s1 with end_date := some (listMax1 a rest) }
  let s3 := match s2.start_date, s2.end_date with
    | some sd, some ed => { s2 with duration := count_working_days sd ed wd hol }
    | _, _ => s2
  let total_dur := children.foldl (fun acc c => acc + c.duration) (0 : Int)
  let s4 :=
    if total_dur > 0 then
      { s3 with progress :=
          (children.foldl (fun acc c => acc + c.progress * (c.duration : Rat)) 0) /
            (total_dur : Rat) }
    else s3
  { s4 with is_critical := children.any (fun c => c.is_critical) }

/-- One summary-rollup iteration: look the summary up by id, gather its
direct children by `parent_id`, and overwrite it with the rollup. -/
def rollupStep (wd hol : List Int) (state : List Task) (sid : Int) : List Task :=
  match taskMap state sid with
  | none => state
  | some summary =>
    let children := state.filter (fun c => c.parent_id == some sid)
    if children.isEmpty then state
    else updateTask state sid (rollupNew wd hol children summary)

/-- `_rollup_summary_tasks`: process summary tasks deepest level first. -/
def rollup_summary_tasks (wd hol : List Int) (tasks : List Task) : List Task :=
  let summary_ids := (sortByLevelDesc (tasks.filter (fun t => t.is_summary))).map (fun t => t.id)
  summary_ids.foldl (rollupStep wd hol) tasks

/-! ## The full `Scheduler.schedule` pipeline -/

/-- Successor ids only, as traversed by the topological DFS. -/
def succIds (rdeps : List Dependency) (tid : Int) : List Int :=
  (succEntries rdeps tid).map (fun e => e.1)

/-- The topological order computed by `schedule` (with the resolvable
dependencies already filtered). -/
def scheduleOrder (tasks : List Task) (rdeps : List Dependency) : List Int :=
  topoForward (succIds rdeps) (tasks.length + 1) tasks

/-- The forward-pass maps computed by `schedule`. -/
def scheduleFwd (wd hol : List Int) (tasks : List Task) (rdeps : List Dependency) (ps : Int) :
    FwdMaps :=
  runForward wd hol ps (taskMap tasks) (predEntries rdeps) (scheduleOrder tasks rdeps)

/-- The backward-pass maps computed by `schedule`. -/
def scheduleBwd (wd hol : List Int) (tasks : List Task) (rdeps : List Dependency) (ps : Int) :
    BwdMaps :=
  let order := scheduleOrder tasks rdeps
  let fm := scheduleFwd wd hol tasks rdeps ps
  let pe := projectEnd fm.ef ps
  order.reverse.foldl (backwardStep pe ps (succEntries rdeps) fm.es fm.ef) ⟨[], []⟩

/-- The computed early start of a task id, as read by the marking loop
(`early_start.get(tid, project_start)`). -/
def scheduleEarlyStart (wd hol : List Int) (tasks : List Task) (deps : List Dependency)
    (ps : Int) (tid : Int) : Int :=
  dictGetD (scheduleFwd wd hol tasks (deps.filter (depResolvable tasks)) ps).es tid ps

/-- The computed late start of a task id, as read by the marking loop
(`late_start.get(tid, project_start)`). -/
def scheduleLateStart (wd hol : List Int) (tasks : List Task) (deps : List Dependency)
    (ps : Int) (tid : Int) : Int :=
  dictGetD (scheduleBwd wd hol tasks (deps.filter (depResolvable tasks)) ps).ls tid ps

/-- `Scheduler.schedule` on the already-filtered dependency list: empty
task lists return unchanged; the forward pass commits dates; if no early
finish was recorded the pass stops there; otherwise backward pass,
critical marking and summary rollup follow. -/
def scheduleCore (wd hol : List Int) (tasks : List Task) (rdeps : List Dependency) (ps : Int) :
    List Task :=
  if tasks.isEmpty then tasks
  else
    let order := scheduleOrder tasks rdeps
    let fm := scheduleFwd wd hol tasks rdeps ps
    let tasks1 := applyDates tasks order fm ps
    if fm.ef.isEmpty then tasks1
    else
      let bm := scheduleBwd wd hol tasks rdeps ps
      let tasks2 := markCritical tasks1 order fm.es bm.ls ps
      rollup_summary_tasks wd hol tasks2

/-- `Scheduler.schedule(tasks, dependencies, project_start)` with the
scheduler's calendar `(working_days, holidays)`: dependencies with a
dangling endpoint are dropped while building the adjacency maps, which
the `depResolvable` filter captures. -/
def schedule (wd hol : List Int) (tasks : List Task) (deps : List Dependency) (ps : Int) :
    List Task :=
  scheduleCore wd hol tasks (deps.filter (depResolvable tasks)) ps

/-! ## WBS manager (`engine/wbs.py`) -/

/-- `while len(counters) <= level: counters.append(0)`. -/
def growCounters (counters : List Int) (level : Nat) : List Int :=
  counters ++ List.replicate (level + 1 - counters.length) 0

/-- `for i in range(level + 1, len(counters)): counters[i] = 0`. -/
def resetDeeper (counters : List Int) (level : Nat) : List Int :=
  counters.take (level + 1) ++ List.replicate (counters.length - (level + 1)) 0

/-- `".".join(str(counters[i]) for i in range(level + 1))`. -/
def wbsString (counters : List Int) (level : Nat) : String :=
  String.intercalate "." ((counters.take (level + 1)).map toString)

/-- `WBSManager.recalculate_wbs`: walk the ordered tasks maintaining the
per-depth counter array; `wbs_level` is a nonnegative outline depth (the
engine never produces a negative level, so `toNat` is exact). -/
def recalculate_wbs (tasks : List Task) : List Task :=
  (tasks.foldl (fun (acc : List Int × List Task) t =>
    let level := t.wbs_level.toNat
    let c1 := growCounters acc.1 level
    let c2 := c1.set level ((c1[level]?.getD 0) + 1)
    let c3 := resetDeeper c2 level
    (c3, acc.2 ++ [{ t with wbs := wbsString c3 level }])) ([], [])).2

/-- `WBSManager.update_summary_flags`: a task is a summary iff the next
task in order has a strictly greater level. -/
def update_summary_flags : List Task → List Task
  | [] => []
  | [t] => [{ t with is_summary := false }]
  | t :: u :: rest =>
    { t with is_summary := decide (u.wbs_level > t.wbs_level) } :: update_summary_flags (u :: rest)

/-- `WBSManager.update_parent_ids`: single pass with a stack of the most
recent task id seen per level. -/
def update_parent_ids (tasks : List Task) : List Task :=
  (tasks.foldl (fun (acc : List (Option Int) × List Task) t =>
    let level := t.wbs_level.toNat
    let stack1 := acc.1.take (level + 1)
    let stack2 := stack1 ++ List.replicate (level + 1 - stack1.length) (stack1.getLast?.getD none)
    let parent := if t.wbs_level > 0 then stack2[level]?.getD none else none
    let stack3 :=
      if stack2.length ≤ level + 1 then stack2 ++ [some t.id]
      else stack2.set (level + 1) (some t.id)
    (stack3, acc.2 ++ [{ t with parent_id := parent }])) ([none], [])).2

/-- The cascading level shift shared by indent and outdent: walk the
tasks after the target, stopping at the first one whose level is at most
`threshold`, shifting the levels of the ones before it by `delta`. -/
def cascadeShift (delta threshold : Int) : List Task → List Task
  | [] => []
  | t :: rest =>
    if t.wbs_level ≤ threshold then t :: rest
    else { t with wbs_level := t.wbs_level + delta } :: cascadeShift delta threshold rest

/-- `WBSManager.indent_task`: fails on index 0 (and on an out-of-range
index, which in Python raises) or when the target is already deeper than
its predecessor; otherwise increments the target's level and cascades the
increment over its contiguous child run. -/
def indent_task (tasks : List Task) (i : Nat) : Bool × List Task :=
  if i = 0 then (false, tasks)
  else
    match tasks[i]?, tasks[i - 1]? with
    | some task, some prev =>
      if task.wbs_level > prev.wbs_level then (false, tasks)
      else
        let newLevel := task.wbs_level + 1
        (true, tasks.take i ++ { task with wbs_level := newLevel } ::
          cascadeShift 1 (newLevel - 1) (tasks.drop (i + 1)))
    | _, _ => (false, tasks)

/-- `WBSManager.outdent_task`: fails at level 0 (or on an out-of-range
index); otherwise decrements the target's level and cascades the
decrement over the run of following tasks deeper than the old level. -/
def outdent_task (tasks : List Task) (i : Nat) : Bool × List Task :=
  match tasks[i]? with
  | none => (false, tasks)
  | some task =>
    if task.wbs_level ≤ 0 then (false, tasks)
    else
      let old_level := task.wbs_level
      (true, tasks.take i ++ { task with wbs_level := task.wbs_level - 1 } ::
        cascadeShift (-1) old_level (tasks.drop (i + 1)))

/-- `WBSManager.recalculate_all`: numbering, then summary flags, then
parent ids. -/
def recalculate_all (tasks : List Task) : List Task :=
  update_parent_ids (update_summary_flags (recalculate_wbs tasks))

/-! ## The concrete three-task scenario (day 0 = 2024-01-01, a Monday) -/

/-- Task A: 5 working days, no predecessor. -/
def taskA : Task := { id := 1, name := "A", duration := 5 }

/-- Task B: 3 working days, FS from A with lag 0. -/
def taskB : Task := { id := 2, name := "B", duration := 3 }

/-- Task C: 2 working days, FS from B with lag 2. -/
def taskC : Task := { id := 3, name := "C", duration := 2 }

/-- The FS dependency A before B, lag 0. -/
def depAB : Dependency := { predecessor_id := 1, successor_id := 2 }

/-- The FS dependency B before C, lag 2. -/
def depBC : Dependency := { predecessor_id := 2, successor_id := 3, lag := 2 }

/-! ## C1: the concrete scenario -/

/-- C1, counterexample.  The spec predicts A = 2024-01-01..01-05 (days
0..4), B = 2024-01-08..01-10 (days 7..9) and C = 2024-01-15..01-16 (days
14..15).  The engine schedules B to start on day 4 (2024-01-05, the very
day A finishes, because `add_working_days` counts the start date as day
1, so the FS shift by `lag+1` working days with lag 0 is the identity on
a working day), so the claimed dates are refuted. -/
theorem C1_counterexample :
    ¬ ((schedule DEFAULT_WORKING_DAYS [] [taskA, taskB, taskC] [depAB, depBC] 0).map
        (fun t => (t.start_date, t.end_date)) =
      [(some 0, some 4), (some 7, some 9), (some 14, some 15)]) := by
  decide

/-- C1, amended.  In the scenario of three tasks A (5d), B (3d, FS from A
lag 0), C (2d, FS from B lag 2) starting 2024-01-01 with the default
Monday-Friday calendar and no holidays, `schedule` produces
A = 2024-01-01..2024-01-05 (days 0..4), B = 2024-01-05..2024-01-09 (days
4..8), C = 2024-01-11..2024-01-12 (days 10..11), and marks all three
tasks critical. -/
theorem C1_schedule_scenario :
    schedule DEFAULT_WORKING_DAYS [] [taskA, taskB, taskC] [depAB, depBC] 0 =
      [{ taskA with start_date := some 0, end_date := some 4, is_critical := true },
       { taskB with start_date := some 4, end_date := some 8, is_critical := true },
       { taskC with start_date := some 10, end_date := some 11, is_critical := true }] := by
  decide

/-! ## C2: the add/count round trip -/

/-- C2, counterexample.  Day 5 of the model is a Saturday.  With the
default calendar and no holidays, `add_working_days(Sat, 2)` burns the
Saturday as "day 1" without it being a working day and returns the
following Monday, so the round trip counts only 1 working day, not 2. -/
theorem C2_counterexample :
    count_working_days 5 (add_working_days 5 2 DEFAULT_WORKING_DAYS [])
        DEFAULT_WORKING_DAYS [] = 1 ∧ (1 : Int) ≠ 2 := by
  decide

/-! ## C7: WBS numbering -/

/-- C7, counterexample.  For the `wbs_level` sequence `[0,1,1,2,0,1]` the
fourth task is a child of the immediately preceding task "1.2", so
`recalculate_all` numbers it "1.2.1"; the claimed output (with "1.1.1")
is refuted. -/
theorem C7_counterexample :
    ¬ ((recalculate_all [{ id := 1 }, { id := 2, wbs_level := 1 }, { id := 3, wbs_level := 1 },
        { id := 4, wbs_level := 2 }, { id := 5 }, { id := 6, wbs_level := 1 }]).map
        (fun t => t.wbs) =
      ["1", "1.1", "1.2", "1.1.1", "2", "2.1"]) := by
  decide

/-- C7, amended.  For the ordered `wbs_level` sequence `[0,1,1,2,0,1]`,
`recalculate_all` assigns the wbs strings
`["1","1.1","1.2","1.2.1","2","2.1"]`, and for `[0,1,1,0]` it assigns
`["1","1.1","1.2","2"]`. -/
theorem C7_wbs_numbering :
    (recalculate_all [{ id := 1 }, { id := 2, wbs_level := 1 }, { id := 3, wbs_level := 1 },
        { id := 4, wbs_level := 2 }, { id := 5 }, { id := 6, wbs_level := 1 }]).map
        (fun t => t.wbs) = ["1", "1.1", "1.2", "1.2.1", "2", "2.1"] ∧
    (recalculate_all [{ id := 1 }, { id := 2, wbs_level := 1 }, { id := 3, wbs_level := 1 },
        { id := 4 }]).map (fun t => t.wbs) = ["1", "1.1", "1.2", "2"] := by
  decide

/-! ## C9: failure semantics -/

/-- C9.  `schedule` is a total function of its inputs (the embedding is
everywhere defined); on an empty task list it returns the list unchanged,
and a dependency one of whose endpoints matches no task id contributes
nothing: inserting it anywhere in the dependency list leaves the final
task state exactly as without it. -/
theorem C9_schedule_malformed_input (wd hol : List Int) (deps : List Dependency) (ps : Int)
    (tasks : List Task) (deps1 deps2 : List Dependency) (d : Dependency) :
    schedule wd hol [] deps ps = [] ∧
    ((∀ t ∈ tasks, t.id ≠ d.predecessor_id) ∨ (∀ t ∈ tasks, t.id ≠ d.successor_id) →
      schedule wd hol tasks (deps1 ++ d :: deps2) ps =
        schedule wd hol tasks (deps1 ++ deps2) ps) := by
  constructor
  · simp [schedule, scheduleCore]
  · intro h
    have hres : depResolvable tasks d = false := by
      rcases h with h | h
      · have : tasks.any (fun t => t.id == d.predecessor_id) = false := by
          simp only [List.any_eq_false]
          intro t ht
          simpa using h t ht
        simp [depResolvable, this]
      · have : tasks.any (fun t => t.id == d.successor_id) = false := by
          simp only [List.any_eq_false]
          intro t ht
          simpa using h t ht
        simp [depResolvable, this]
    simp [schedule, List.filter_append, List.filter_cons, hres]

/-- C9, witness: a dangling dependency (predecessor id 5 matches no task)
is dropped without changing the result. -/
theorem C9_witness :
    ((∀ t ∈ [taskA], t.id ≠ (5 : Int)) ∨ (∀ t ∈ [taskA], t.id ≠ (1 : Int))) ∧
    schedule DEFAULT_WORKING_DAYS [] [taskA]
        ([] ++ ({ predecessor_id := 5, successor_id := 1 } : Dependency) :: []) 0 =
      schedule DEFAULT_WORKING_DAYS [] [taskA] ([] ++ []) 0 :=
  ⟨Or.inl (by decide),
    (C9_schedule_malformed_input DEFAULT_WORKING_DAYS [] [] 0 [taskA] [] []
      { predecessor_id := 5, successor_id := 1 }).2 (Or.inl (by decide))⟩

/-! ## C8: indent / outdent round trip -/

/-- Outdenting with threshold `th + 1` undoes indenting with threshold
`th`: the two cascades stop at the same task and cancel the shift. -/
theorem cascadeShift_roundtrip (th : Int) :
    ∀ l : List Task, cascadeShift (-1) (th + 1) (cascadeShift 1 th l) = l := by
  intro l
  induction l with
  | nil => rfl
  | cons t rest ih =>
    by_cases h : t.wbs_level ≤ th
    · have h1 : t.wbs_level ≤ th + 1 := by omega
      simp [cascadeShift, h, h1]
    · have h1 : ¬ (t.wbs_level + 1 ≤ th + 1) := by omega
      have h2 : t.wbs_level + 1 + -1 = t.wbs_level := by omega
      simp [cascadeShift, h, h1, h2, ih]

/-- On success, `indent_task` produces exactly the shifted list. -/
theorem indent_task_eq_of_success (tasks : List Task) (i : Nat) (task prev : Task)
    (h0 : ¬ i = 0) (hti : tasks[i]? = some task) (htp : tasks[i - 1]? = some prev)
    (hle : ¬ task.wbs_level > prev.wbs_level) :
    indent_task tasks i =
      (true, tasks.take i ++ { task with wbs_level := task.wbs_level + 1 } ::
        cascadeShift 1 (task.wbs_level + 1 - 1) (tasks.drop (i + 1))) := by
  simp [indent_task, h0, hti, htp, hle]

/-- A successful `indent_task` call was made on a valid index whose task
is at most one level below its predecessor. -/
theorem indent_task_success_shape (tasks : List Task) (i : Nat)
    (h : (indent_task tasks i).1 = true) :
    ¬ i = 0 ∧ ∃ task prev, tasks[i]? = some task ∧ tasks[i - 1]? = some prev ∧
      ¬ task.wbs_level > prev.wbs_level := by
  by_cases h0 : i = 0
  · simp [indent_task, h0] at h
  · refine ⟨h0, ?_⟩
    rcases hti : tasks[i]? with _ | task
    · simp [indent_task, h0, hti] at h
    · rcases htp : tasks[i - 1]? with _ | prev
      · simp [indent_task, h0, hti, htp] at h
      · refine ⟨task, prev, rfl, rfl, ?_⟩
        by_cases hle : task.wbs_level > prev.wbs_level
        · simp [indent_task, h0, hti, htp, hle] at h
        · exact hle

/-- C8.  On a task list whose outline levels are nonnegative (the data
model's `wbsLevel ≥ 0` invariant), whenever `indent_task` succeeds, the
immediately following `outdent_task` on the same index succeeds and
returns the task list exactly as it was before the indent, restoring
every shifted `wbs_level`. -/
theorem C8_indent_outdent_roundtrip (tasks : List Task) (i : Nat)
    (hlv : ∀ t ∈ tasks, 0 ≤ t.wbs_level)
    (h : (indent_task tasks i).1 = true) :
    outdent_task (indent_task tasks i).2 i = (true, tasks) := by
  obtain ⟨h0, task, prev, hti, htp, hle⟩ := indent_task_success_shape tasks i h
  have hmem : task ∈ tasks := List.getElem?_mem hti
  have htask0 : 0 ≤ task.wbs_level := hlv task hmem
  have hilen : i < tasks.length := by
    rcases List.getElem?_eq_some.mp hti with ⟨hn, _⟩
    exact hn
  have htakelen : (tasks.take i).length = i := by
    simp [List.length_take]
    omega
  rw [indent_task_eq_of_success tasks i task prev h0 hti htp hle]
  have hth : task.wbs_level + 1 - 1 = task.wbs_level := by omega
  rw [hth]
  dsimp only
  set t' : Task := { task with wbs_level := task.wbs_level + 1 } with ht'
  set rest : List Task := cascadeShift 1 task.wbs_level (tasks.drop (i + 1)) with hrest
  have hgetL : (tasks.take i ++ t' :: rest)[i]? = some t' := by
    rw [List.getElem?_append_right (by omega)]
    simp [htakelen]
  have hlev' : ¬ t'.wbs_level ≤ 0 := by
    simp [ht']
    omega
  unfold outdent_task
  rw [hgetL]
  dsimp only
  rw [if_neg hlev']
  have htake : (tasks.take i ++ t' :: rest).take i = tasks.take i :=
    List.take_left' htakelen
  have hdrop : (tasks.take i ++ t' :: rest).drop (i + 1) = rest := by
    have : tasks.take i ++ t' :: rest = (tasks.take i ++ [t']) ++ rest := by simp
    rw [this, List.drop_left']
    simp [htakelen]
  rw [htake, hdrop, hth, hrest, cascadeShift_roundtrip]
  have heta : ({ task with wbs_level := task.wbs_level } : Task) = task := rfl
  rw [heta]
  have hfin : tasks.take i ++ task :: tasks.drop (i + 1) = tasks := by
    have hdropc : tasks.drop i = task :: tasks.drop (i + 1) := by
      rcases List.getElem?_eq_some.mp hti with ⟨hn, hv⟩
      rw [List.drop_eq_getElem_cons hn, hv]
    rw [← hdropc, List.take_append_drop]
  rw [hfin]

/-- C8, witness: indent then outdent on index 1 of a five-task outline
restores all levels. -/
theorem C8_witness :
    (∀ t ∈ ([{ id := 1 }, { id := 2 }, { id := 3, wbs_level := 1 },
        { id := 4, wbs_level := 2 }, { id := 5 }] : List Task), 0 ≤ t.wbs_level) ∧
    (indent_task [{ id := 1 }, { id := 2 }, { id := 3, wbs_level := 1 },
        { id := 4, wbs_level := 2 }, { id := 5 }] 1).1 = true ∧
    outdent_task (indent_task [{ id := 1 }, { id := 2 }, { id := 3, wbs_level := 1 },
        { id := 4, wbs_level := 2 }, { id := 5 }] 1).2 1 =
      (true, [{ id := 1 }, { id := 2 }, { id := 3, wbs_level := 1 },
        { id := 4, wbs_level := 2 }, { id := 5 }]) :=
  ⟨by decide, by decide,
    C8_indent_outdent_roundtrip _ 1 (by decide) (by decide)⟩

/-! ## Default-calendar theory for the C2 round trip -/

/-- Proof-side helper: the next working day strictly after `c` in the
default Monday-Friday calendar. -/
def nextW (c : Int) : Int :=
  if c % 7 = 4 then c + 3 else if c % 7 = 5 then c + 2 else c + 1

/-- Proof-side helper: `nextW` iterated `r` times. -/
def nthNext (c : Int) : Nat → Int
  | 0 => c
  | r + 1 => nthNext (nextW c) r

/-- In the default calendar with no holidays, a day is working exactly
when its weekday residue is below 5. -/
theorem default_working_iff (d : Int) :
    is_working_day d DEFAULT_WORKING_DAYS [] = true ↔ d % 7 < 5 := by
  have h7 : d % 7 = 0 ∨ d % 7 = 1 ∨ d % 7 = 2 ∨ d % 7 = 3 ∨ d % 7 = 4 ∨
      d % 7 = 5 ∨ d % 7 = 6 := by omega
  rcases h7 with h | h | h | h | h | h | h <;>
    simp [is_working_day, DEFAULT_WORKING_DAYS, weekday, h]

/-- `nextW` always lands on a default-calendar working day. -/
theorem nextW_working (c : Int) :
    is_working_day (nextW c) DEFAULT_WORKING_DAYS [] = true := by
  rw [default_working_iff]
  unfold nextW
  split_ifs with h1 h2 <;> omega

/-- `nextW` strictly advances. -/
theorem nextW_gt (c : Int) : c < nextW c := by
  unfold nextW
  split_ifs <;> omega

/-- `nthNext` never goes backward. -/
theorem nthNext_ge (r : Nat) : ∀ c : Int, c ≤ nthNext c r := by
  induction r with
  | zero => intro c; simp [nthNext]
  | succ r ih =>
    intro c
    calc c ≤ nextW c := le_of_lt (nextW_gt c)
    _ ≤ nthNext (nextW c) r := ih (nextW c)
    _ = nthNext c (r + 1) := rfl

/-- `nthNext` preserves landing on a working day. -/
theorem nthNext_working (r : Nat) : ∀ c : Int,
    is_working_day c DEFAULT_WORKING_DAYS [] = true →
    is_working_day (nthNext c r) DEFAULT_WORKING_DAYS [] = true := by
  induction r with
  | zero => intro c h; exact h
  | succ r ih => intro c _; exact ih (nextW c) (nextW_working c)

/-- Unfolding equation for the working-day counting loop of
`add_working_days`. -/
theorem addLoop_succ (wd hol : List Int) (c : Int) (r f : Nat) :
    addLoop wd hol c (r + 1) (f + 1) =
      if is_working_day (c + 1) wd hol then addLoop wd hol (c + 1) r f
      else addLoop wd hol (c + 1) (r + 1) f := rfl

/-- The loop with zero working days remaining stays put. -/
theorem addLoop_zero (wd hol : List Int) (c : Int) (f : Nat) :
    addLoop wd hol c 0 f = c := by
  cases f <;> rfl

/-- With fuel at least `3 * r`, the counting loop of `add_working_days`
computes `nthNext` on the default calendar: each further working day is
at most three calendar days ahead. -/
theorem addLoop_default (r : Nat) : ∀ (c : Int) (f : Nat), 3 * r ≤ f →
    addLoop DEFAULT_WORKING_DAYS [] c r f = nthNext c r := by
  induction r with
  | zero => intro c f _; simp [addLoop_zero, nthNext]
  | succ r ih =>
    intro c f hf
    have h7 : c % 7 = 4 ∨ c % 7 = 5 ∨ (c % 7 ≠ 4 ∧ c % 7 ≠ 5) := by omega
    have hnth : nthNext c (r + 1) = nthNext (nextW c) r := rfl
    rcases h7 with h | h | ⟨h4, h5⟩
    · obtain ⟨f3, rfl⟩ : ∃ f3, f = f3 + 3 := ⟨f - 3, by omega⟩
      have hb1 : ¬ (is_working_day (c + 1) DEFAULT_WORKING_DAYS [] = true) := by
        rw [default_working_iff]; omega
      have hb2 : ¬ (is_working_day (c + 1 + 1) DEFAULT_WORKING_DAYS [] = true) := by
        rw [default_working_iff]; omega
      have hb3 : is_working_day (c + 1 + 1 + 1) DEFAULT_WORKING_DAYS [] = true := by
        rw [default_working_iff]; omega
      have e1 : f3 + 3 = (f3 + 2) + 1 := rfl
      rw [e1, addLoop_succ, if_neg hb1]
      have e2 : f3 + 2 = (f3 + 1) + 1 := rfl
      rw [e2, addLoop_succ, if_neg hb2]
      rw [addLoop_succ, if_pos hb3, ih _ f3 (by omega), hnth]
      have : nextW c = c + 1 + 1 + 1 := by unfold nextW; rw [if_pos h]; ring
      rw [this]
    · obtain ⟨f2, rfl⟩ : ∃ f2, f = f2 + 2 := ⟨f - 2, by omega⟩
      have hb1 : ¬ (is_working_day (c + 1) DEFAULT_WORKING_DAYS [] = true) := by
        rw [default_working_iff]; omega
      have hb2 : is_working_day (c + 1 + 1) DEFAULT_WORKING_DAYS [] = true := by
        rw [default_working_iff]; omega
      have e1 : f2 + 2 = (f2 + 1) + 1 := rfl
      rw [e1, addLoop_succ, if_neg hb1]
      rw [addLoop_succ, if_pos hb2, ih _ f2 (by omega), hnth]
      have : nextW c = c + 1 + 1 := by
        unfold nextW; rw [if_neg (by omega), if_pos h]; ring
      rw [this]
    · obtain ⟨f1, rfl⟩ : ∃ f1, f = f1 + 1 := ⟨f - 1, by omega⟩
      have hb1 : is_working_day (c + 1) DEFAULT_WORKING_DAYS [] = true := by
        rw [default_working_iff]; omega
      rw [addLoop_succ, if_pos hb1, ih _ f1 (by omega), hnth]
      have : nextW c = c + 1 := by unfold nextW; rw [if_neg h4, if_neg h5]
      rw [this]

/-- The landing loop is the identity on a working day. -/
theorem seekLoop_of_working (wd hol : List Int) (c : Int) (f : Nat)
    (h : is_working_day c wd hol = true) : seekLoop wd hol c f = c := by
  cases f with
  | zero => rfl
  | succ f => simp [seekLoop, h]

/-- Splitting the day-counting loop of `count_working_days`. -/
theorem countLoop_append (wd hol : List Int) (m : Nat) : ∀ (c : Int) (n : Nat),
    countLoop wd hol c (m + n) =
      countLoop wd hol c m + countLoop wd hol (c + (m : Int)) n := by
  induction m with
  | zero => intro c n; simp [countLoop]
  | succ m ih =>
    intro c n
    have e : (m + 1) + n = (m + n) + 1 := by omega
    rw [e]
    show (if is_working_day c wd hol then (1 : Int) else 0) + countLoop wd hol (c + 1) (m + n) =
      ((if is_working_day c wd hol then (1 : Int) else 0) + countLoop wd hol (c + 1) m) +
        countLoop wd hol (c + ((m : Int) + 1)) n
    rw [ih (c + 1) n]
    have e2 : c + 1 + (m : Int) = c + ((m : Int) + 1) := by ring
    rw [e2]
    ring

/-- From a working day `c`, the block of days up to just before `nextW c`
contains exactly one working day, namely `c` itself. -/
theorem countLoop_block (c : Int) (h : c % 7 < 5) :
    countLoop DEFAULT_WORKING_DAYS [] c ((nextW c - c).toNat) = 1 := by
  have hw : is_working_day c DEFAULT_WORKING_DAYS [] = true := by
    rw [default_working_iff]; exact h
  have h7 : c % 7 = 4 ∨ c % 7 ≠ 4 := by omega
  rcases h7 with h4 | h4
  · have e : nextW c = c + 3 := by unfold nextW; rw [if_pos h4]
    have et : ((c + 3 - c).toNat) = 3 := by omega
    rw [e, et]
    have e3 : countLoop DEFAULT_WORKING_DAYS [] c 3 =
        (if is_working_day c DEFAULT_WORKING_DAYS [] then (1 : Int) else 0) +
        ((if is_working_day (c + 1) DEFAULT_WORKING_DAYS [] then (1 : Int) else 0) +
        ((if is_working_day (c + 1 + 1) DEFAULT_WORKING_DAYS [] then (1 : Int) else 0) + 0)) := rfl
    have hb1 : ¬ (is_working_day (c + 1) DEFAULT_WORKING_DAYS [] = true) := by
      rw [default_working_iff]; omega
    have hb2 : ¬ (is_working_day (c + 1 + 1) DEFAULT_WORKING_DAYS [] = true) := by
      rw [default_working_iff]; omega
    rw [e3, if_pos hw, if_neg hb1, if_neg hb2]
    ring
  · have e : nextW c = c + 1 := by
      unfold nextW; rw [if_neg h4, if_neg (by omega)]
    have et : ((c + 1 - c).toNat) = 1 := by omega
    rw [e, et]
    have e1 : countLoop DEFAULT_WORKING_DAYS [] c 1 =
        (if is_working_day c DEFAULT_WORKING_DAYS [] then (1 : Int) else 0) + 0 := rfl
    rw [e1, if_pos hw]
    ring

/-- Counting working days from a working day `c` through `nthNext c r`
inclusive yields exactly `r + 1`. -/
theorem countLoop_nthNext (r : Nat) : ∀ c : Int, c % 7 < 5 →
    countLoop DEFAULT_WORKING_DAYS [] c ((nthNext c r - c).toNat + 1) = (r : Int) + 1 := by
  induction r with
  | zero =>
    intro c h
    have e : nthNext c 0 = c := rfl
    rw [e]
    have et : (c - c).toNat = 0 := by omega
    rw [et]
    have e1 : countLoop DEFAULT_WORKING_DAYS [] c 1 =
        (if is_working_day c DEFAULT_WORKING_DAYS [] then (1 : Int) else 0) + 0 := rfl
    rw [e1, if_pos ((default_working_iff c).mpr h)]
    simp
  | succ r ih =>
    intro c h
    have hb : nextW c ≤ nthNext (nextW c) r := nthNext_ge r (nextW c)
    have hcb : c < nextW c := nextW_gt c
    have e : nthNext c (r + 1) = nthNext (nextW c) r := rfl
    rw [e]
    have esplit : (nthNext (nextW c) r - c).toNat + 1 =
        (nextW c - c).toNat + ((nthNext (nextW c) r - nextW c).toNat + 1) := by omega
    rw [esplit, countLoop_append]
    have ec : c + ((nextW c - c).toNat : Int) = nextW c := by omega
    rw [ec, countLoop_block c h,
      ih (nextW c) ((default_working_iff (nextW c)).mp (nextW_working c))]
    push_cast
    ring

/-- C2, amended.  For every start date that is itself a working day of
the default Monday-Friday calendar with no holidays, and every `n ≥ 1`,
`count_working_days start (add_working_days start n) = n`. -/
theorem C2_round_trip (start n : Int)
    (hw : is_working_day start DEFAULT_WORKING_DAYS [] = true) (hn : 1 ≤ n) :
    count_working_days start (add_working_days start n DEFAULT_WORKING_DAYS [])
      DEFAULT_WORKING_DAYS [] = n := by
  have hres : start % 7 < 5 := (default_working_iff start).mp hw
  unfold add_working_days
  rw [if_neg (by omega)]
  have hfuel : 3 * (n - 1).toNat ≤ addFuel n [] := by
    unfold addFuel
    simp only [List.length_nil]
    omega
  rw [addLoop_default ((n - 1).toNat) start (addFuel n []) hfuel]
  rw [seekLoop_of_working _ _ _ _ (nthNext_working ((n - 1).toNat) start hw)]
  unfold count_working_days
  have hge : start ≤ nthNext start ((n - 1).toNat) := nthNext_ge _ start
  rw [if_neg (by omega)]
  rw [countLoop_nthNext ((n - 1).toNat) start hres]
  have : ((n - 1).toNat : Int) = n - 1 := by omega
  rw [this]
  have : (1 : Int) ≤ n - 1 + 1 := by omega
  omega

/-- C2, witness: the round trip at the Monday day 0 with `n = 3`. -/
theorem C2_witness :
    is_working_day 0 DEFAULT_WORKING_DAYS [] = true ∧ (1 : Int) ≤ 3 ∧
    count_working_days 0 (add_working_days 0 3 DEFAULT_WORKING_DAYS [])
      DEFAULT_WORKING_DAYS [] = 3 :=
  ⟨by decide, by decide, C2_round_trip 0 3 (by decide) (by decide)⟩

/-! ## Dictionary lemmas -/

/-- Helper for `dictGet?_insert_self`: overwriting in place makes the
first hit of the key carry the new value. -/
theorem find?_overwrite (m : DateDict) (k v : Int)
    (h : m.any (fun p => p.1 == k) = true) :
    (m.map (fun p => if p.1 == k then (k, v) else p)).find? (fun p => p.1 == k) =
      some (k, v) := by
  induction m with
  | nil => simp at h
  | cons q rest ih =>
    cases hq : (q.1 == k) with
    | true =>
      rw [List.map_cons, if_pos hq]
      simp only [List.find?_cons]
      simp
    | false =>
      have hrest : rest.any (fun p => p.1 == k) = true := by
        simp only [List.any_cons, hq, Bool.false_or] at h
        exact h
      rw [List.map_cons, if_neg (by simp [hq])]
      simp only [List.find?_cons, hq]
      exact ih hrest

/-- Helper for `dictGet?_insert_ne`: overwriting key `k` does not affect
searches for a different key. -/
theorem find?_overwrite_ne (m : DateDict) (k v k' : Int) (h : ¬ k' = k) :
    (m.map (fun p => if p.1 == k then (k, v) else p)).find? (fun p => p.1 == k') =
      m.find? (fun p => p.1 == k') := by
  induction m with
  | nil => rfl
  | cons q rest ih =>
    have hkk' : ((k : Int) == k') = false := by
      simp
      omega
    cases hq : (q.1 == k) with
    | true =>
      have hq' : (q.1 == k') = false := by
        simp at hq ⊢
        omega
      rw [List.map_cons, if_pos hq]
      simp only [List.find?_cons, hkk', hq']
      exact ih
    | false =>
      rw [List.map_cons, if_neg (by simp [hq])]
      cases hq' : (q.1 == k') with
      | true => simp only [List.find?_cons, hq']
      | false =>
        simp only [List.find?_cons, hq']
        exact ih

/-- Dict update then lookup of the same key yields the new value. -/
theorem dictGet?_insert_self (m : DateDict) (k v : Int) :
    dictGet? (dictInsert m k v) k = some v := by
  unfold dictInsert dictGet?
  by_cases hany : m.any (fun p => p.1 == k) = true
  · rw [if_pos hany, find?_overwrite m k v hany]
    rfl
  · rw [if_neg hany, List.find?_append]
    have hnone : m.find? (fun p => p.1 == k) = none := by
      rw [List.find?_eq_none]
      intro p hp hpk
      exact hany (List.any_eq_true.mpr ⟨p, hp, hpk⟩)
    simp [hnone]

/-- Dict update leaves lookups of other keys unchanged. -/
theorem dictGet?_insert_ne (m : DateDict) (k v k' : Int) (h : ¬ k' = k) :
    dictGet? (dictInsert m k v) k' = dictGet? m k' := by
  unfold dictInsert dictGet?
  by_cases hany : m.any (fun p => p.1 == k) = true
  · rw [if_pos hany, find?_overwrite_ne m k v k' h]
  · rw [if_neg hany, List.find?_append]
    have hone : ([(k, v)] : DateDict).find? (fun p => p.1 == k') = none := by
      simp
      omega
    rw [hone]
    simp

/-- Dict update never produces the empty dictionary. -/
theorem dictInsert_ne_nil (m : DateDict) (k v : Int) : dictInsert m k v ≠ [] := by
  unfold dictInsert
  by_cases hany : m.any (fun p => p.1 == k) = true
  · rw [if_pos hany]
    rcases m with _ | ⟨q, rest⟩
    · simp at hany
    · simp
  · rw [if_neg hany]
    simp

/-! ## DFS lemmas -/

/-- The body of one productive `visit` call at child fuel `f`. -/
def visitStep (succsOf : Int → List Int) (fuel : Nat) (st : DfsSt) (tid : Int) : DfsSt :=
  if tid ∈ st.visited then st
  else
    let st1 := visitMany succsOf fuel (succsOf tid) ⟨tid :: st.visited, st.topo⟩
    ⟨st1.visited, st1.topo ++ [tid]⟩

/-- Unfolding: visiting a list at positive fuel folds `visitStep`. -/
theorem visitMany_succ (succsOf : Int → List Int) (f : Nat) (l : List Int) (st : DfsSt) :
    visitMany succsOf (f + 1) l st = l.foldl (visitStep succsOf f) st := rfl

/-- A single visit at positive fuel is one `visitStep`. -/
theorem visitF_succ (succsOf : Int → List Int) (f : Nat) (st : DfsSt) (tid : Int) :
    visitF succsOf (f + 1) st tid = visitStep succsOf f st tid := rfl

/-- What one pass of the DFS preserves: the visited set grows, the
post-order list only gets appended to, and the set of gray nodes
(visited but not yet appended, i.e. the open call stack) is unchanged. -/
structure DfsOK (st st' : DfsSt) : Prop where
  vis : ∀ x, x ∈ st.visited → x ∈ st'.visited
  topo : ∃ l, st'.topo = st.topo ++ l
  gray : ∀ x, (x ∈ st'.visited ∧ x ∉ st'.topo) ↔ (x ∈ st.visited ∧ x ∉ st.topo)

/-- `DfsOK` is reflexive. -/
theorem DfsOK.refl (st : DfsSt) : DfsOK st st :=
  ⟨fun _ h => h, ⟨[], by simp⟩, fun _ => Iff.rfl⟩

/-- `DfsOK` composes. -/
theorem DfsOK.comp {a b c : DfsSt} (h1 : DfsOK a b) (h2 : DfsOK b c) : DfsOK a c := by
  refine ⟨fun x hx => h2.vis x (h1.vis x hx), ?_, fun x => (h2.gray x).trans (h1.gray x)⟩
  obtain ⟨l1, e1⟩ := h1.topo
  obtain ⟨l2, e2⟩ := h2.topo
  exact ⟨l1 ++ l2, by rw [e2, e1, List.append_assoc]⟩

/-- Post-order membership is monotone along a pass. -/
theorem DfsOK.topo_mem {st st' : DfsSt} (h : DfsOK st st') {x : Int} (hx : x ∈ st.topo) :
    x ∈ st'.topo := by
  obtain ⟨l, e⟩ := h.topo
  rw [e]
  exact List.mem_append_left l hx

/-- Every DFS pass satisfies `DfsOK`. -/
theorem visitMany_ok (succsOf : Int → List Int) :
    ∀ (f : Nat) (l : List Int) (st : DfsSt), DfsOK st (visitMany succsOf f l st) := by
  intro f
  induction f with
  | zero => intro l st; exact DfsOK.refl st
  | succ f ihf =>
    have hstep : ∀ (st : DfsSt) (tid : Int), DfsOK st (visitStep succsOf f st tid) := by
      intro st tid
      unfold visitStep
      by_cases hv : tid ∈ st.visited
      · rw [if_pos hv]; exact DfsOK.refl st
      · rw [if_neg hv]
        have h1 := ihf (succsOf tid) ⟨tid :: st.visited, st.topo⟩
        refine ⟨fun x hx => h1.vis x (List.mem_cons_of_mem tid hx), ?_, fun x => ?_⟩
        · obtain ⟨l, e⟩ := h1.topo
          exact ⟨l ++ [tid], by simp [e]⟩
        · constructor
          · rintro ⟨hxv, hxt⟩
            have hxt1 : x ∉ (visitMany succsOf f (succsOf tid) ⟨tid :: st.visited, st.topo⟩).topo :=
              fun hc => hxt (List.mem_append_left _ hc)
            have hne : x ≠ tid := by
              intro he
              exact hxt (by simp [he])
            have := (h1.gray x).mp ⟨hxv, hxt1⟩
            rcases this with ⟨hxv0, hxt0⟩
            rcases List.mem_cons.mp hxv0 with he | hm
            · exact absurd he hne
            · exact ⟨hm, hxt0⟩
          · rintro ⟨hxv, hxt⟩
            have hne : x ≠ tid := fun he => hv (he ▸ hxv)
            have := (h1.gray x).mpr ⟨List.mem_cons_of_mem tid hxv, hxt⟩
            rcases this with ⟨hxv1, hxt1⟩
            refine ⟨hxv1, fun hc => ?_⟩
            rcases List.mem_append.mp hc with hc1 | hc2
            · exact hxt1 hc1
            · simp at hc2
              exact hne hc2
    intro l
    induction l with
    | nil => intro st; exact DfsOK.refl st
    | cons tid rest ihl =>
      intro st
      rw [visitMany_succ, List.foldl_cons, ← visitMany_succ]
      exact DfsOK.comp (hstep st tid) (ihl (visitStep succsOf f st tid))

/-- The DFS invariant: the post-order list has no duplicates and only
holds visited ids. -/
def DfsInv (st : DfsSt) : Prop :=
  st.topo.Nodup ∧ ∀ x ∈ st.topo, x ∈ st.visited

/-- Every DFS pass preserves the invariant. -/
theorem visitMany_inv (succsOf : Int → List Int) :
    ∀ (f : Nat) (l : List Int) (st : DfsSt), DfsInv st → DfsInv (visitMany succsOf f l st) := by
  intro f
  induction f with
  | zero => intro l st h; exact h
  | succ f ihf =>
    have hstep : ∀ (st : DfsSt) (tid : Int), DfsInv st → DfsInv (visitStep succsOf f st tid) := by
      intro st tid hinv
      unfold visitStep
      by_cases hv : tid ∈ st.visited
      · rw [if_pos hv]; exact hinv
      · rw [if_neg hv]
        have hinv0 : DfsInv ⟨tid :: st.visited, st.topo⟩ :=
          ⟨hinv.1, fun x hx => List.mem_cons_of_mem tid (hinv.2 x hx)⟩
        have hinv1 := ihf (succsOf tid) ⟨tid :: st.visited, st.topo⟩ hinv0
        have hok := visitMany_ok succsOf f (succsOf tid) ⟨tid :: st.visited, st.topo⟩
        have hgray : tid ∈ (visitMany succsOf f (succsOf tid) ⟨tid :: st.visited, st.topo⟩).visited ∧
            tid ∉ (visitMany succsOf f (succsOf tid) ⟨tid :: st.visited, st.topo⟩).topo := by
          apply (hok.gray tid).mpr
          exact ⟨by simp, fun hc => hv (hinv.2 tid hc)⟩
        constructor
        · rw [List.nodup_append]
          exact ⟨hinv1.1, List.nodup_singleton tid, by
            intro a ha hb
            simp at hb
            exact hgray.2 (hb ▸ ha)⟩
        · intro x hx
          rcases List.mem_append.mp hx with hx1 | hx2
          · exact hinv1.2 x hx1
          · simp at hx2
            exact hx2 ▸ hgray.1
    intro l
    induction l with
    | nil => intro st h; exact h
    | cons tid rest ihl =>
      intro st h
      rw [visitMany_succ, List.foldl_cons, ← visitMany_succ]
      exact ihl (visitStep succsOf f st tid) (hstep st tid h)

/-- The root fold is one DFS pass per non-summary task. -/
theorem rootFold_ok (succsOf : Int → List Int) (f : Nat) :
    ∀ (tasks : List Task) (st : DfsSt), DfsOK st (rootFold succsOf f tasks st) := by
  intro tasks
  induction tasks with
  | nil => intro st; exact DfsOK.refl st
  | cons t rest ih =>
    intro st
    rw [rootFold, List.foldl_cons]
    by_cases hs : t.is_summary
    · simpa [rootFold, hs] using ih _
    · refine DfsOK.comp ?_ (by simpa [rootFold, hs] using ih (visitF succsOf f st t.id))
      unfold visitF
      exact visitMany_ok succsOf f [t.id] st

/-- The root fold preserves the DFS invariant. -/
theorem rootFold_inv (succsOf : Int → List Int) (f : Nat) :
    ∀ (tasks : List Task) (st : DfsSt), DfsInv st → DfsInv (rootFold succsOf f tasks st) := by
  intro tasks
  induction tasks with
  | nil => intro st h; exact h
  | cons t rest ih =>
    intro st h
    show DfsInv (rootFold succsOf f rest (if t.is_summary then st else visitF succsOf f st t.id))
    by_cases hs : t.is_summary
    · rw [if_pos hs]
      exact ih st h
    · rw [if_neg hs]
      exact ih _ (visitMany_inv succsOf f [t.id] st h)

/-- Every non-summary task's id reaches the post-order list, provided no
node is left gray in the starting state. -/
theorem rootFold_mem (succsOf : Int → List Int) (f : Nat) (hf : 1 ≤ f) :
    ∀ (tasks : List Task) (st : DfsSt), (∀ x ∈ st.visited, x ∈ st.topo) →
      ∀ t ∈ tasks, t.is_summary = false → t.id ∈ (rootFold succsOf f tasks st).topo := by
  intro tasks
  induction tasks with
  | nil => intro st _ t ht; exact absurd ht (List.not_mem_nil t)
  | cons u rest ih =>
    intro st hgray t hmem hns
    obtain ⟨f', rfl⟩ : ∃ f', f = f' + 1 := ⟨f - 1, by omega⟩
    rw [rootFold, List.foldl_cons, ← rootFold]
    rcases List.mem_cons.mp hmem with he | hm
    · subst he
      rw [hns, if_neg (by simp)]
      have hstep : t.id ∈ (visitF succsOf (f' + 1) st t.id).topo := by
        rw [visitF_succ]
        unfold visitStep
        by_cases hv : t.id ∈ st.visited
        · rw [if_pos hv]
          exact hgray t.id hv
        · rw [if_neg hv]
          simp
      exact (rootFold_ok succsOf (f' + 1) rest _).topo_mem hstep
    · -- the head step keeps the gray set empty
      have hgray' : ∀ x ∈ (if u.is_summary then st else visitF succsOf (f' + 1) st u.id).visited,
          x ∈ (if u.is_summary then st else visitF succsOf (f' + 1) st u.id).topo := by
        by_cases hs : u.is_summary
        · simpa [hs] using hgray
        · rw [if_neg hs]
          intro x hx
          by_contra hc
          have hok := visitMany_ok succsOf (f' + 1) [u.id] st
          have := (hok.gray x).mp ⟨hx, hc⟩
          exact absurd (hgray x this.1) this.2
      exact ih _ hgray' t hm hns

/-- Every non-summary task's id appears in the topological order. -/
theorem scheduleOrder_mem (tasks : List Task) (rdeps : List Dependency) (t : Task)
    (ht : t ∈ tasks) (hs : t.is_summary = false) : t.id ∈ scheduleOrder tasks rdeps := by
  unfold scheduleOrder topoForward
  rw [List.mem_reverse]
  exact rootFold_mem (succIds rdeps) (tasks.length + 1) (by omega) tasks ⟨[], []⟩
    (by intro x hx; simp at hx) t ht hs

/-- The topological order has no duplicate ids. -/
theorem scheduleOrder_nodup (tasks : List Task) (rdeps : List Dependency) :
    (scheduleOrder tasks rdeps).Nodup := by
  unfold scheduleOrder topoForward
  rw [List.nodup_reverse]
  exact (rootFold_inv (succIds rdeps) (tasks.length + 1) tasks ⟨[], []⟩
    ⟨List.nodup_nil, by intro x hx; simp at hx⟩).1

/-! ## Task-map and monotonicity lemmas -/

/-- With duplicate-free ids, searching a task list for a member's id
finds exactly that member. -/
theorem find?_id_of_nodup : ∀ (l : List Task), (l.map (fun t => t.id)).Nodup →
    ∀ t ∈ l, l.find? (fun u => u.id == t.id) = some t := by
  intro l
  induction l with
  | nil => intro _ t ht; exact absurd ht (List.not_mem_nil t)
  | cons u rest ih =>
    intro hnd t ht
    rw [List.map_cons, List.nodup_cons] at hnd
    rcases List.mem_cons.mp ht with he | hm
    · rw [he]
      rw [List.find?_cons_of_pos]
      simp
    · have hne : (u.id == t.id) = false := by
        simp only [beq_eq_false_iff_ne, ne_eq]
        intro hc
        exact hnd.1 (hc ▸ List.mem_map.mpr ⟨t, hm, rfl⟩)
      simp only [List.find?_cons, hne]
      exact ih hnd.2 t hm

/-- With duplicate-free ids, `task_map` maps a member's id to itself. -/
theorem taskMap_eq (tasks : List Task) (hnd : (tasks.map (fun t => t.id)).Nodup)
    (t : Task) (ht : t ∈ tasks) : taskMap tasks t.id = some t := by
  unfold taskMap
  apply find?_id_of_nodup
  · rw [List.map_reverse, List.nodup_reverse]
    exact hnd
  · exact List.mem_reverse.mpr ht

/-- With duplicate-free ids, equal ids mean equal tasks. -/
theorem id_inj_of_nodup (tasks : List Task) (hnd : (tasks.map (fun t => t.id)).Nodup)
    (t u : Task) (ht : t ∈ tasks) (hu : u ∈ tasks) (he : t.id = u.id) : t = u := by
  have h1 := taskMap_eq tasks hnd t ht
  have h2 := taskMap_eq tasks hnd u hu
  rw [he, h2] at h1
  exact (Option.some_inj.mp h1).symm

/-- Both `add_working_days` loops only move forward in time. -/
theorem addLoop_ge (wd hol : List Int) : ∀ (f r : Nat) (c : Int), c ≤ addLoop wd hol c r f := by
  intro f
  induction f with
  | zero =>
    intro r c
    cases r <;> simp [addLoop]
  | succ f ih =>
    intro r c
    cases r with
    | zero => simp [addLoop]
    | succ r =>
      rw [addLoop_succ]
      split_ifs
      · have := ih r (c + 1)
        omega
      · have := ih (r + 1) (c + 1)
        omega

/-- The landing loop only moves forward in time. -/
theorem seekLoop_ge (wd hol : List Int) : ∀ (f : Nat) (c : Int), c ≤ seekLoop wd hol c f := by
  intro f
  induction f with
  | zero => intro c; simp [seekLoop]
  | succ f ih =>
    intro c
    rw [seekLoop]
    split_ifs
    · exact le_refl c
    · have := ih (c + 1)
      omega

/-- `add_working_days` never returns a date before its start. -/
theorem add_working_days_ge (start days : Int) (wd hol : List Int) :
    start ≤ add_working_days start days wd hol := by
  unfold add_working_days
  split_ifs
  · exact le_refl start
  · calc start ≤ addLoop wd hol start (days - 1).toNat (addFuel days hol) :=
        addLoop_ge wd hol _ _ start
    _ ≤ _ := seekLoop_ge wd hol _ _

/-! ## Forward-pass stability lemmas -/

/-- A forward step only writes the key it processes. -/
theorem forwardStep_get?_ne (wd hol : List Int) (ps : Int) (taskOf : Int → Option Task)
    (predsOf : Int → List (Int × String × Int)) (m : FwdMaps) (tid k : Int) (h : ¬ k = tid) :
    dictGet? (forwardStep wd hol ps taskOf predsOf m tid).es k = dictGet? m.es k ∧
    dictGet? (forwardStep wd hol ps taskOf predsOf m tid).ef k = dictGet? m.ef k := by
  unfold forwardStep
  rcases taskOf tid with _ | task
  · exact ⟨rfl, rfl⟩
  · dsimp only
    by_cases hm : task.manual_scheduling
    · rw [if_pos hm]
      rcases task.start_date with _ | sd
      · exact ⟨rfl, rfl⟩
      · exact ⟨dictGet?_insert_ne _ _ _ _ h, dictGet?_insert_ne _ _ _ _ h⟩
    · rw [if_neg hm]
      exact ⟨dictGet?_insert_ne _ _ _ _ h, dictGet?_insert_ne _ _ _ _ h⟩

/-- Later forward steps do not disturb a key they never process. -/
theorem foldForward_get?_stable (wd hol : List Int) (ps : Int) (taskOf : Int → Option Task)
    (predsOf : Int → List (Int × String × Int)) :
    ∀ (l : List Int) (m : FwdMaps) (k : Int), k ∉ l →
      dictGet? (l.foldl (forwardStep wd hol ps taskOf predsOf) m).es k = dictGet? m.es k ∧
      dictGet? (l.foldl (forwardStep wd hol ps taskOf predsOf) m).ef k = dictGet? m.ef k := by
  intro l
  induction l with
  | nil => intro m k _; exact ⟨rfl, rfl⟩
  | cons tid rest ih =>
    intro m k hk
    rw [List.foldl_cons]
    have hne : ¬ k = tid := fun he => hk (by simp [he])
    have h1 := forwardStep_get?_ne wd hol ps taskOf predsOf m tid k hne
    have h2 := ih (forwardStep wd hol ps taskOf predsOf m tid) k
      (fun hc => hk (List.mem_cons_of_mem _ hc))
    exact ⟨h2.1.trans h1.1, h2.2.trans h1.2⟩

/-- The forward step of a non-manual task records its early start and
the derived early finish. -/
theorem forwardStep_auto (wd hol : List Int) (ps : Int) (taskOf : Int → Option Task)
    (predsOf : Int → List (Int × String × Int)) (m : FwdMaps) (tid : Int) (task : Task)
    (htask : taskOf tid = some task) (hm : task.manual_scheduling = false) :
    dictGet? (forwardStep wd hol ps taskOf predsOf m tid).es tid =
      some (fwdEsVal wd hol ps m task (predsOf tid)) ∧
    dictGet? (forwardStep wd hol ps taskOf predsOf m tid).ef tid =
      some (fwdEfVal wd hol task (fwdEsVal wd hol ps m task (predsOf tid))) := by
  unfold forwardStep
  rw [htask]
  dsimp only
  rw [if_neg (by simp [hm])]
  exact ⟨dictGet?_insert_self _ _ _, dictGet?_insert_self _ _ _⟩

/-- A lookup hit means the dictionary is not empty. -/
theorem dict_ne_empty_of_get? (m : DateDict) (k v : Int) (h : dictGet? m k = some v) :
    m.isEmpty = false := by
  rcases m with _ | ⟨q, rest⟩
  · simp [dictGet?] at h
  · rfl

/-- The final forward maps hold, at the id of any non-manual non-summary
task, the early start recorded at that task's own step, with the early
finish derived from it by `fwdEfVal`. -/
theorem scheduleFwd_at (wd hol : List Int) (tasks : List Task) (rdeps : List Dependency)
    (ps : Int) (t : Task) (hnd : (tasks.map (fun x => x.id)).Nodup) (ht : t ∈ tasks)
    (hs : t.is_summary = false) (hm : t.manual_scheduling = false) :
    ∃ es : Int, dictGet? (scheduleFwd wd hol tasks rdeps ps).es t.id = some es ∧
      dictGet? (scheduleFwd wd hol tasks rdeps ps).ef t.id = some (fwdEfVal wd hol t es) := by
  have hmem := scheduleOrder_mem tasks rdeps t ht hs
  obtain ⟨l1, l2, horder⟩ := List.append_of_mem hmem
  have hnd_order := scheduleOrder_nodup tasks rdeps
  rw [horder, List.nodup_append] at hnd_order
  have hnotl2 : t.id ∉ l2 := (List.nodup_cons.mp hnd_order.2.1).1
  unfold scheduleFwd runForward
  rw [horder, List.foldl_append, List.foldl_cons]
  have hstep := forwardStep_auto wd hol ps (taskMap tasks) (predEntries rdeps)
    (l1.foldl (forwardStep wd hol ps (taskMap tasks) (predEntries rdeps)) ⟨[], []⟩) t.id t
    (taskMap_eq tasks hnd t ht) hm
  have hstab := foldForward_get?_stable wd hol ps (taskMap tasks) (predEntries rdeps) l2
    (forwardStep wd hol ps (taskMap tasks) (predEntries rdeps)
      (l1.foldl (forwardStep wd hol ps (taskMap tasks) (predEntries rdeps)) ⟨[], []⟩) t.id)
    t.id hnotl2
  exact ⟨_, hstab.1.trans hstep.1, hstab.2.trans hstep.2⟩

/-! ## Positional behaviour of the mutation passes -/

/-- Insertion keeps exactly the old members plus the new one. -/
theorem mem_insertByLevelDesc (t : Task) :
    ∀ (l : List Task) (x : Task), x ∈ insertByLevelDesc t l ↔ x = t ∨ x ∈ l := by
  intro l
  induction l with
  | nil => intro x; simp [insertByLevelDesc]
  | cons y ys ih =>
    intro x
    unfold insertByLevelDesc
    split_ifs
    · rw [List.mem_cons, ih x, List.mem_cons]
      tauto
    · rw [List.mem_cons, List.mem_cons]

/-- The stable sort keeps exactly the same members. -/
theorem mem_sortByLevelDesc : ∀ (l : List Task) (x : Task), x ∈ sortByLevelDesc l ↔ x ∈ l := by
  intro l
  induction l with
  | nil => intro x; rfl
  | cons y ys ih =>
    intro x
    rw [sortByLevelDesc, mem_insertByLevelDesc, ih x, List.mem_cons]

/-- `updateTask` acts pointwise on list positions. -/
theorem updateTask_get? (tasks : List Task) (tid : Int) (nt : Task) (i : Nat) :
    (updateTask tasks tid nt)[i]? = (tasks[i]?).map (fun t => if t.id == tid then nt else t) := by
  unfold updateTask
  rw [List.getElem?_map]

/-- A rollup step leaves positions with a different id untouched. -/
theorem rollupStep_get?_ne (wd hol : List Int) (state : List Task) (sid : Int) (i : Nat)
    (t : Task) (hti : state[i]? = some t) (hne : ¬ t.id = sid) :
    (rollupStep wd hol state sid)[i]? = some t := by
  unfold rollupStep
  rcases taskMap state sid with _ | summary
  · exact hti
  · dsimp only
    by_cases hc : (state.filter (fun c => c.parent_id == some sid)).isEmpty
    · rw [if_pos hc]
      exact hti
    · rw [if_neg hc]
      simp only [updateTask, List.getElem?_map, hti]
      simp [hne]

/-- Folding rollup steps over ids that all differ from a position's id
leaves that position untouched. -/
theorem rollupFold_untouched (wd hol : List Int) :
    ∀ (ids : List Int) (state : List Task) (i : Nat) (t : Task), state[i]? = some t →
      (∀ sid ∈ ids, ¬ t.id = sid) →
      (ids.foldl (rollupStep wd hol) state)[i]? = some t := by
  intro ids
  induction ids with
  | nil => intro state i t hti _; exact hti
  | cons sid rest ih =>
    intro state i t hti hall
    rw [List.foldl_cons]
    exact ih (rollupStep wd hol state sid) i t
      (rollupStep_get?_ne wd hol state sid i t hti (hall sid (by simp)))
      (fun s hs => hall s (List.mem_cons_of_mem _ hs))

/-- Summary rollup leaves every non-summary position untouched (ids are
duplicate-free, so no non-summary task shares an id with a summary). -/
theorem rollup_get?_nonsummary (wd hol : List Int) (state : List Task)
    (hnd : (state.map (fun t => t.id)).Nodup) (i : Nat) (t : Task)
    (hti : state[i]? = some t) (hs : t.is_summary = false) :
    (rollup_summary_tasks wd hol state)[i]? = some t := by
  unfold rollup_summary_tasks
  apply rollupFold_untouched wd hol _ state i t hti
  intro sid hsid hc
  rcases List.mem_map.mp hsid with ⟨s, hsmem, hsid_eq⟩
  rw [mem_sortByLevelDesc] at hsmem
  rcases List.mem_filter.mp hsmem with ⟨hsmem', hssum⟩
  have ht' : t ∈ state := List.getElem?_mem hti
  have : t = s := id_inj_of_nodup state hnd t s ht' hsmem' (by rw [hc, hsid_eq])
  rw [this] at hs
  rw [hs] at hssum
  exact Bool.false_ne_true hssum

/-- `applyDates` acts pointwise on list positions. -/
theorem applyDates_get? (tasks : List Task) (order : List Int) (m : FwdMaps) (ps : Int)
    (i : Nat) :
    (applyDates tasks order m ps)[i]? = (tasks[i]?).map (fun t =>
      if order.contains t.id && !t.manual_scheduling then
        { t with start_date := some (dictGetD m.es t.id ps),
                 end_date := some (dictGetD m.ef t.id ps) }
      else t) := by
  unfold applyDates
  rw [List.getElem?_map]

/-- `markCritical` acts pointwise on list positions. -/
theorem markCritical_get? (tasks : List Task) (order : List Int) (es ls : DateDict)
    (ps : Int) (i : Nat) :
    (markCritical tasks order es ls ps)[i]? = (tasks[i]?).map (fun t =>
      if order.contains t.id then
        { t with is_critical := decide (dictGetD ls t.id ps - dictGetD es t.id ps ≤ 0) }
      else t) := by
  unfold markCritical
  rw [List.getElem?_map]

/-- `applyDates` keeps every id in place. -/
theorem applyDates_map_id (tasks : List Task) (order : List Int) (m : FwdMaps) (ps : Int) :
    (applyDates tasks order m ps).map (fun t => t.id) = tasks.map (fun t => t.id) := by
  unfold applyDates
  rw [List.map_map]
  apply List.map_congr_left
  intro t _
  simp only [Function.comp]
  split_ifs <;> rfl

/-- `markCritical` keeps every id in place. -/
theorem markCritical_map_id (tasks : List Task) (order : List Int) (es ls : DateDict)
    (ps : Int) :
    (markCritical tasks order es ls ps).map (fun t => t.id) = tasks.map (fun t => t.id) := by
  unfold markCritical
  rw [List.map_map]
  apply List.map_congr_left
  intro t _
  simp only [Function.comp]
  split_ifs <;> rfl

/-- The final state of a non-manual, non-summary task: the committed
dates are the forward-pass early start and early finish recorded at its
own step, and the critical flag compares the computed late start to the
computed early start. -/
theorem schedule_at_auto (wd hol : List Int) (tasks : List Task) (deps : List Dependency)
    (ps : Int) (hnd : (tasks.map (fun x => x.id)).Nodup) (i : Nat) (t : Task)
    (hti : tasks[i]? = some t) (hm : t.manual_scheduling = false)
    (hs : t.is_summary = false) :
    ∃ es : Int,
      dictGet? (scheduleFwd wd hol tasks (deps.filter (depResolvable tasks)) ps).es t.id =
        some es ∧
      (schedule wd hol tasks deps ps)[i]? = some
        { t with start_date := some es,
                 end_date := some (fwdEfVal wd hol t es),
                 is_critical := decide (scheduleLateStart wd hol tasks deps ps t.id -
                   scheduleEarlyStart wd hol tasks deps ps t.id ≤ 0) } := by
  have htmem : t ∈ tasks := List.getElem?_mem hti
  obtain ⟨es, hes, hef⟩ := scheduleFwd_at wd hol tasks (deps.filter (depResolvable tasks)) ps
    t hnd htmem hs hm
  refine ⟨es, hes, ?_⟩
  have hne : tasks.isEmpty = false := by
    rcases tasks with _ | ⟨u, rest⟩
    · simp at hti
    · rfl
  have hEFne : (scheduleFwd wd hol tasks (deps.filter (depResolvable tasks)) ps).ef.isEmpty =
      false := dict_ne_empty_of_get? _ _ _ hef
  have hbody : schedule wd hol tasks deps ps =
      rollup_summary_tasks wd hol
        (markCritical
          (applyDates tasks (scheduleOrder tasks (deps.filter (depResolvable tasks)))
            (scheduleFwd wd hol tasks (deps.filter (depResolvable tasks)) ps) ps)
          (scheduleOrder tasks (deps.filter (depResolvable tasks)))
          (scheduleFwd wd hol tasks (deps.filter (depResolvable tasks)) ps).es
          (scheduleBwd wd hol tasks (deps.filter (depResolvable tasks)) ps).ls ps) := by
    unfold schedule scheduleCore
    rw [if_neg (by simp [hne]), if_neg (by simp [hEFne])]
  rw [hbody]
  have hmemM : t.id ∈ scheduleOrder tasks (deps.filter (depResolvable tasks)) :=
    scheduleOrder_mem tasks _ t htmem hs
  have hesD : dictGetD (scheduleFwd wd hol tasks (deps.filter (depResolvable tasks)) ps).es
      t.id ps = es := by
    unfold dictGetD
    rw [hes]
    rfl
  have hefD : dictGetD (scheduleFwd wd hol tasks (deps.filter (depResolvable tasks)) ps).ef
      t.id ps = fwdEfVal wd hol t es := by
    unfold dictGetD
    rw [hef]
    rfl
  have h1 : (applyDates tasks (scheduleOrder tasks (deps.filter (depResolvable tasks)))
      (scheduleFwd wd hol tasks (deps.filter (depResolvable tasks)) ps) ps)[i]? = some
        { t with start_date := some es, end_date := some (fwdEfVal wd hol t es) } := by
    rw [applyDates_get?, hti]
    simp only [Option.map_some']
    rw [if_pos (by simp [hmemM, hm]), hesD, hefD]
  have h2 : (markCritical
      (applyDates tasks (scheduleOrder tasks (deps.filter (depResolvable tasks)))
        (scheduleFwd wd hol tasks (deps.filter (depResolvable tasks)) ps) ps)
      (scheduleOrder tasks (deps.filter (depResolvable tasks)))
      (scheduleFwd wd hol tasks (deps.filter (depResolvable tasks)) ps).es
      (scheduleBwd wd hol tasks (deps.filter (depResolvable tasks)) ps).ls ps)[i]? = some
        { t with start_date := some es, end_date := some (fwdEfVal wd hol t es),
                 is_critical := decide (scheduleLateStart wd hol tasks deps ps t.id -
                   scheduleEarlyStart wd hol tasks deps ps t.id ≤ 0) } := by
    rw [markCritical_get?, h1]
    simp only [Option.map_some']
    rw [if_pos (by simp [hmemM])]
    rfl
  apply rollup_get?_nonsummary wd hol _ _ i _ h2 hs
  rw [markCritical_map_id, applyDates_map_id]
  exact hnd

/-! ## C10: automatic tasks always get a well-ordered date range -/

/-- C10.  After `schedule` runs on a (non-empty) task list with
duplicate-free ids, every task with `manual_scheduling = false` and
`is_summary = false` carries non-null start and end dates with
`start_date ≤ end_date`. -/
theorem C10_auto_dates (wd hol : List Int) (tasks : List Task) (deps : List Dependency)
    (ps : Int) (hnd : (tasks.map (fun t => t.id)).Nodup) (i : Nat) (t : Task)
    (hti : tasks[i]? = some t) (hm : t.manual_scheduling = false)
    (hs : t.is_summary = false) :
    ∃ (u : Task) (s e : Int), (schedule wd hol tasks deps ps)[i]? = some u ∧
      u.start_date = some s ∧ u.end_date = some e ∧ s ≤ e := by
  obtain ⟨es, _, hres⟩ := schedule_at_auto wd hol tasks deps ps hnd i t hti hm hs
  refine ⟨_, es, fwdEfVal wd hol t es, hres, rfl, rfl, ?_⟩
  unfold fwdEfVal
  split_ifs
  · exact le_refl es
  · exact add_working_days_ge es t.duration wd hol

/-- C10, witness: a single automatic task gets dates 0..0. -/
theorem C10_witness :
    ([taskA].map (fun t => t.id)).Nodup ∧ ([taskA] : List Task)[0]? = some taskA ∧
    taskA.manual_scheduling = false ∧ taskA.is_summary = false ∧
    ∃ (u : Task) (s e : Int), (schedule DEFAULT_WORKING_DAYS [] [taskA] [] 0)[0]? = some u ∧
      u.start_date = some s ∧ u.end_date = some e ∧ s ≤ e :=
  ⟨by decide, by decide, by decide, by decide,
    C10_auto_dates DEFAULT_WORKING_DAYS [] [taskA] [] 0 (by decide) 0 taskA
      (by decide) (by decide) (by decide)⟩

/-! ## C5: milestones -/

/-- A milestone task whose caller-set duration is 3 working days. -/
def taskM : Task := { id := 1, duration := 3, is_milestone := true }

/-- C5, counterexample.  `schedule` never touches `duration`: after
scheduling, the milestone's duration is still 3, not 0 (only the
`Task.set_dates_from_duration` model helper, which `schedule` does not
call, forces a milestone's duration to 0). -/
theorem C5_counterexample :
    (schedule DEFAULT_WORKING_DAYS [] [taskM] [] 0).map (fun t => t.duration) = [3] ∧
    (3 : Int) ≠ 0 := by
  decide

/-- C5, amended.  After `schedule` (ids duplicate-free), every
non-manual, non-summary milestone task has `start_date = end_date`, and
its `duration` is left exactly as the caller set it (not forced to 0). -/
theorem C5_milestone_dates (wd hol : List Int) (tasks : List Task) (deps : List Dependency)
    (ps : Int) (hnd : (tasks.map (fun t => t.id)).Nodup) (i : Nat) (t : Task)
    (hti : tasks[i]? = some t) (hmil : t.is_milestone = true)
    (hm : t.manual_scheduling = false) (hs : t.is_summary = false) :
    ∃ (u : Task) (d : Int), (schedule wd hol tasks deps ps)[i]? = some u ∧
      u.start_date = some d ∧ u.end_date = some d ∧ u.duration = t.duration := by
  obtain ⟨es, _, hres⟩ := schedule_at_auto wd hol tasks deps ps hnd i t hti hm hs
  refine ⟨_, es, hres, rfl, ?_, rfl⟩
  show some (fwdEfVal wd hol t es) = some es
  unfold fwdEfVal
  rw [if_pos hmil]

/-- C5, witness: the concrete milestone is scheduled with equal dates
and keeps duration 3. -/
theorem C5_witness :
    ([taskM].map (fun t => t.id)).Nodup ∧ ([taskM] : List Task)[0]? = some taskM ∧
    taskM.is_milestone = true ∧ taskM.manual_scheduling = false ∧ taskM.is_summary = false ∧
    ∃ (u : Task) (d : Int), (schedule DEFAULT_WORKING_DAYS [] [taskM] [] 0)[0]? = some u ∧
      u.start_date = some d ∧ u.end_date = some d ∧ u.duration = taskM.duration :=
  ⟨by decide, by decide, by decide, by decide, by decide,
    C5_milestone_dates DEFAULT_WORKING_DAYS [] [taskM] [] 0 (by decide) 0 taskM
      (by decide) (by decide) (by decide) (by decide)⟩

/-! ## C4: critical marking -/

/-- A 1-day task starting the project. -/
def taskP : Task := { id := 1, duration := 1 }

/-- A 1-day successor held back by a start-no-earlier-than constraint on
day 7 (the second Monday). -/
def taskQ : Task := { id := 2, duration := 1,
                      constraint_type := some "SNET", constraint_date := some 7 }

/-- FS dependency from `taskP` to `taskQ`. -/
def depPQ : Dependency := { predecessor_id := 1, successor_id := 2 }

/-- C4, counterexample.  The SNET constraint pushes task 2 to day 7, but
the backward pass walks back in calendar days, giving it late start 6:
its float is negative, so it is marked critical although its computed
late start (6) differs from its early start (7).  The marked set is
therefore not the set of tasks with `lateStart = earlyStart` (and in
this same scenario the only critical task has a predecessor, so no
source-to-sink path is entirely critical either). -/
theorem C4_counterexample :
    (schedule DEFAULT_WORKING_DAYS [] [taskP, taskQ] [depPQ] 0).map (fun t => t.is_critical) =
      [false, true] ∧
    scheduleLateStart DEFAULT_WORKING_DAYS [] [taskP, taskQ] [depPQ] 0 2 = 6 ∧
    scheduleEarlyStart DEFAULT_WORKING_DAYS [] [taskP, taskQ] [depPQ] 0 2 = 7 ∧
    (6 : Int) ≠ 7 := by
  decide

/-! ## C6: the frame of `schedule` -/

/-- Field-by-field agreement on everything the scheduler must never
touch: identity, name, outline data, flags, constraints and baselines. -/
structure FrozenEq (u t : Task) : Prop where
  id : u.id = t.id
  name : u.name = t.name
  wbs_level : u.wbs_level = t.wbs_level
  wbs : u.wbs = t.wbs
  parent_id : u.parent_id = t.parent_id
  sort_order : u.sort_order = t.sort_order
  is_milestone : u.is_milestone = t.is_milestone
  is_summary : u.is_summary = t.is_summary
  constraint_type : u.constraint_type = t.constraint_type
  constraint_date : u.constraint_date = t.constraint_date
  manual_scheduling : u.manual_scheduling = t.manual_scheduling
  baseline_start : u.baseline_start = t.baseline_start
  baseline_end : u.baseline_end = t.baseline_end
  baseline_duration : u.baseline_duration = t.baseline_duration

/-- `FrozenEq` is reflexive. -/
theorem frozenEq_refl (t : Task) : FrozenEq t t :=
  ⟨rfl, rfl, rfl, rfl, rfl, rfl, rfl, rfl, rfl, rfl, rfl, rfl, rfl, rfl⟩

/-- `FrozenEq` composes. -/
theorem frozenEq_trans {a b c : Task} (h1 : FrozenEq a b) (h2 : FrozenEq b c) : FrozenEq a c :=
  ⟨h1.id.trans h2.id, h1.name.trans h2.name, h1.wbs_level.trans h2.wbs_level,
   h1.wbs.trans h2.wbs, h1.parent_id.trans h2.parent_id, h1.sort_order.trans h2.sort_order,
   h1.is_milestone.trans h2.is_milestone, h1.is_summary.trans h2.is_summary,
   h1.constraint_type.trans h2.constraint_type, h1.constraint_date.trans h2.constraint_date,
   h1.manual_scheduling.trans h2.manual_scheduling, h1.baseline_start.trans h2.baseline_start,
   h1.baseline_end.trans h2.baseline_end, h1.baseline_duration.trans h2.baseline_duration⟩

/-- Record updates of the scheduler's derived fields keep the frozen
fields intact. -/
theorem frozenEq_update_start (x : Task) (d : Option Int) :
    FrozenEq { x with start_date := d } x :=
  ⟨rfl, rfl, rfl, rfl, rfl, rfl, rfl, rfl, rfl, rfl, rfl, rfl, rfl, rfl⟩

/-- As `frozenEq_update_start`, for the end date. -/
theorem frozenEq_update_end (x : Task) (d : Option Int) :
    FrozenEq { x with end_date := d } x :=
  ⟨rfl, rfl, rfl, rfl, rfl, rfl, rfl, rfl, rfl, rfl, rfl, rfl, rfl, rfl⟩

/-- As `frozenEq_update_start`, for the duration. -/
theorem frozenEq_update_duration (x : Task) (d : Int) :
    FrozenEq { x with duration := d } x :=
  ⟨rfl, rfl, rfl, rfl, rfl, rfl, rfl, rfl, rfl, rfl, rfl, rfl, rfl, rfl⟩

/-- As `frozenEq_update_start`, for the progress. -/
theorem frozenEq_update_progress (x : Task) (p : Rat) :
    FrozenEq { x with progress := p } x :=
  ⟨rfl, rfl, rfl, rfl, rfl, rfl, rfl, rfl, rfl, rfl, rfl, rfl, rfl, rfl⟩

/-- As `frozenEq_update_start`, for the critical flag. -/
theorem frozenEq_update_critical (x : Task) (b : Bool) :
    FrozenEq { x with is_critical := b } x :=
  ⟨rfl, rfl, rfl, rfl, rfl, rfl, rfl, rfl, rfl, rfl, rfl, rfl, rfl, rfl⟩

/-- The rolled-up summary record only changes dates, duration, progress
and criticality — never the frozen fields. -/
theorem rollupNew_frozen (wd hol : List Int) (children : List Task) (summary : Task) :
    FrozenEq (rollupNew wd hol children summary) summary := by
  have h1 : ∀ (x : Task) (l : List Int), FrozenEq (match l with
      | [] => x
      | a :: rest => { x with start_date := some (listMin1 a rest) }) x := by
    intro x l
    rcases l with _ | ⟨a, rest⟩
    · exact frozenEq_refl x
    · exact frozenEq_update_start x _
  have h2 : ∀ (x : Task) (l : List Int), FrozenEq (match l with
      | [] => x
      | a :: rest => { x with end_date := some (listMax1 a rest) }) x := by
    intro x l
    rcases l with _ | ⟨a, rest⟩
    · exact frozenEq_refl x
    · exact frozenEq_update_end x _
  have h3 : ∀ (x : Task) (o1 o2 : Option Int), FrozenEq (match o1, o2 with
      | some sd, some ed => { x with duration := count_working_days sd ed wd hol }
      | _, _ => x) x := by
    intro x o1 o2
    rcases o1 with _ | sd <;> rcases o2 with _ | ed
    · exact frozenEq_refl x
    · exact frozenEq_refl x
    · exact frozenEq_refl x
    · exact frozenEq_update_duration x _
  have h4 : ∀ (x : Task) (n : Int) (p : Rat),
      FrozenEq (if n > 0 then { x with progress := p } else x) x := by
    intro x n p
    split_ifs
    · exact frozenEq_update_progress x _
    · exact frozenEq_refl x
  unfold rollupNew
  exact frozenEq_trans (frozenEq_update_critical _ _)
    (frozenEq_trans (h4 _ _ _) (frozenEq_trans (h3 _ _ _) (frozenEq_trans (h2 _ _) (h1 summary _))))

/-- A `task_map` hit carries the looked-up id. -/
theorem taskMap_id (state : List Task) (sid : Int) (summary : Task)
    (h : taskMap state sid = some summary) : summary.id = sid := by
  unfold taskMap at h
  have := List.find?_some h
  simpa using this

/-- `updateTask` with a record carrying the same id keeps all ids. -/
theorem updateTask_map_id (state : List Task) (sid : Int) (nt : Task) (hid : nt.id = sid) :
    (updateTask state sid nt).map (fun t => t.id) = state.map (fun t => t.id) := by
  unfold updateTask
  rw [List.map_map]
  apply List.map_congr_left
  intro t _
  simp only [Function.comp]
  by_cases h : (t.id == sid) = true
  · rw [if_pos h]
    simp at h
    rw [hid, h]
  · rw [if_neg h]

/-- A rollup step keeps every id in place. -/
theorem rollupStep_map_id (wd hol : List Int) (state : List Task) (sid : Int) :
    (rollupStep wd hol state sid).map (fun t => t.id) = state.map (fun t => t.id) := by
  unfold rollupStep
  rcases hmap : taskMap state sid with _ | summary
  · rfl
  · dsimp only
    split_ifs with hc
    · rfl
    · exact updateTask_map_id state sid _
        ((rollupNew_frozen wd hol _ summary).id.trans (taskMap_id state sid summary hmap))

/-- A rollup step keeps every position's frozen fields. -/
theorem rollupStep_frozen_at (wd hol : List Int) (state : List Task) (sid : Int)
    (hnd : (state.map (fun t => t.id)).Nodup) (i : Nat) (t : Task)
    (hti : state[i]? = some t) :
    ∃ u, (rollupStep wd hol state sid)[i]? = some u ∧ FrozenEq u t := by
  unfold rollupStep
  rcases hmap : taskMap state sid with _ | summary
  · exact ⟨t, hti, frozenEq_refl t⟩
  · dsimp only
    split_ifs with hc
    · exact ⟨t, hti, frozenEq_refl t⟩
    · rw [updateTask_get?, hti]
      simp only [Option.map_some']
      by_cases hid : (t.id == sid) = true
      · refine ⟨_, rfl, ?_⟩
        rw [if_pos hid]
        have hsum : summary = t := by
          have h1 := taskMap_eq state hnd t (List.getElem?_mem hti)
          simp only [beq_iff_eq] at hid
          rw [hid, hmap] at h1
          exact Option.some_inj.mp h1
        rw [hsum] at hmap ⊢
        exact rollupNew_frozen wd hol _ t
      · refine ⟨t, ?_, frozenEq_refl t⟩
        rw [if_neg hid]

/-- Folding summary rollups keeps every position's frozen fields. -/
theorem rollupFold_frozen (wd hol : List Int) :
    ∀ (ids : List Int) (state : List Task), (state.map (fun t => t.id)).Nodup →
      ∀ (i : Nat) (t : Task), state[i]? = some t →
        ∃ u, (ids.foldl (rollupStep wd hol) state)[i]? = some u ∧ FrozenEq u t := by
  intro ids
  induction ids with
  | nil => intro state _ i t hti; exact ⟨t, hti, frozenEq_refl t⟩
  | cons sid rest ih =>
    intro state hnd i t hti
    rw [List.foldl_cons]
    obtain ⟨u1, hu1, hfr1⟩ := rollupStep_frozen_at wd hol state sid hnd i t hti
    have hnd' : ((rollupStep wd hol state sid).map (fun t => t.id)).Nodup := by
      rw [rollupStep_map_id]
      exact hnd
    obtain ⟨u2, hu2, hfr2⟩ := ih (rollupStep wd hol state sid) hnd' i u1 hu1
    exact ⟨u2, hu2, frozenEq_trans hfr2 hfr1⟩

/-- The whole summary rollup keeps every position's frozen fields. -/
theorem rollup_frozen (wd hol : List Int) (state : List Task)
    (hnd : (state.map (fun t => t.id)).Nodup) (i : Nat) (t : Task)
    (hti : state[i]? = some t) :
    ∃ u, (rollup_summary_tasks wd hol state)[i]? = some u ∧ FrozenEq u t := by
  unfold rollup_summary_tasks
  exact rollupFold_frozen wd hol _ state hnd i t hti

/-- The date commit per position: frozen fields intact, duration and
progress intact, and a manual task's dates untouched. -/
theorem applyDates_at (tasks : List Task) (order : List Int) (m : FwdMaps) (ps : Int)
    (i : Nat) (t : Task) (hti : tasks[i]? = some t) :
    ∃ u, (applyDates tasks order m ps)[i]? = some u ∧ FrozenEq u t ∧
      (t.manual_scheduling = true → u.start_date = t.start_date ∧ u.end_date = t.end_date) ∧
      u.duration = t.duration ∧ u.progress = t.progress := by
  by_cases hcond : (order.contains t.id && !t.manual_scheduling) = true
  · have hu : (applyDates tasks order m ps)[i]? = some
        { t with start_date := some (dictGetD m.es t.id ps),
                 end_date := some (dictGetD m.ef t.id ps) } := by
      rw [applyDates_get?, hti]
      simp only [Option.map_some']
      rw [if_pos hcond]
    refine ⟨_, hu,
      ⟨rfl, rfl, rfl, rfl, rfl, rfl, rfl, rfl, rfl, rfl, rfl, rfl, rfl, rfl⟩, ?_, rfl, rfl⟩
    intro hman
    rw [hman] at hcond
    simp at hcond
  · refine ⟨t, ?_, frozenEq_refl t, fun _ => ⟨rfl, rfl⟩, rfl, rfl⟩
    rw [applyDates_get?, hti]
    simp only [Option.map_some']
    rw [if_neg hcond]

/-- The critical marking per position: everything except the critical
flag is intact. -/
theorem markCritical_at (tasks : List Task) (order : List Int) (es ls : DateDict) (ps : Int)
    (i : Nat) (t : Task) (hti : tasks[i]? = some t) :
    ∃ u, (markCritical tasks order es ls ps)[i]? = some u ∧ FrozenEq u t ∧
      u.start_date = t.start_date ∧ u.end_date = t.end_date ∧
      u.duration = t.duration ∧ u.progress = t.progress := by
  by_cases hcond : (order.contains t.id) = true
  · have hu : (markCritical tasks order es ls ps)[i]? = some
        { t with is_critical := decide (dictGetD ls t.id ps - dictGetD es t.id ps ≤ 0) } := by
      rw [markCritical_get?, hti]
      simp only [Option.map_some']
      rw [if_pos hcond]
    exact ⟨_, hu,
      ⟨rfl, rfl, rfl, rfl, rfl, rfl, rfl, rfl, rfl, rfl, rfl, rfl, rfl, rfl⟩, rfl, rfl, rfl, rfl⟩
  · refine ⟨t, ?_, frozenEq_refl t, rfl, rfl, rfl, rfl⟩
    rw [markCritical_get?, hti]
    simp only [Option.map_some']
    rw [if_neg hcond]

/-- The three result shapes of `schedule`: empty input unchanged, commit
only (no early finish recorded), or the full pipeline. -/
theorem schedule_eq_cases (wd hol : List Int) (tasks : List Task) (deps : List Dependency)
    (ps : Int) :
    schedule wd hol tasks deps ps = tasks ∨
    schedule wd hol tasks deps ps =
      applyDates tasks (scheduleOrder tasks (deps.filter (depResolvable tasks)))
        (scheduleFwd wd hol tasks (deps.filter (depResolvable tasks)) ps) ps ∨
    schedule wd hol tasks deps ps =
      rollup_summary_tasks wd hol
        (markCritical
          (applyDates tasks (scheduleOrder tasks (deps.filter (depResolvable tasks)))
            (scheduleFwd wd hol tasks (deps.filter (depResolvable tasks)) ps) ps)
          (scheduleOrder tasks (deps.filter (depResolvable tasks)))
          (scheduleFwd wd hol tasks (deps.filter (depResolvable tasks)) ps).es
          (scheduleBwd wd hol tasks (deps.filter (depResolvable tasks)) ps).ls ps) := by
  unfold schedule scheduleCore
  by_cases h1 : tasks.isEmpty = true
  · left
    rw [if_pos h1]
  · by_cases h2 :
      (scheduleFwd wd hol tasks (deps.filter (depResolvable tasks)) ps).ef.isEmpty = true
    · right; left
      rw [if_neg h1, if_pos h2]
    · right; right
      rw [if_neg h1, if_neg h2]

/-- A manually scheduled 1-day task with caller-set dates, to witness
the critical-marking rule on a manual task. -/
def taskMan : Task := { id := 3, duration := 1, manual_scheduling := true,
                        start_date := some 0, end_date := some 0 }

/-- C4, amended.  After `schedule` (ids duplicate-free), whenever the
forward pass recorded at least one early finish (the source otherwise
returns before the marking loop runs), every non-summary task — manual
or automatic — is marked critical exactly when its computed late start
is at most its computed early start (total float `≤ 0`, not `= 0`). -/
theorem C4_critical_iff (wd hol : List Int) (tasks : List Task) (deps : List Dependency)
    (ps : Int) (hnd : (tasks.map (fun t => t.id)).Nodup) (i : Nat) (t : Task)
    (hti : tasks[i]? = some t) (hs : t.is_summary = false)
    (hef : (scheduleFwd wd hol tasks (deps.filter (depResolvable tasks)) ps).ef.isEmpty =
      false) :
    ∃ u : Task, (schedule wd hol tasks deps ps)[i]? = some u ∧
      (u.is_critical = true ↔
        scheduleLateStart wd hol tasks deps ps t.id ≤
          scheduleEarlyStart wd hol tasks deps ps t.id) := by
  have htmem : t ∈ tasks := List.getElem?_mem hti
  have hne : tasks.isEmpty = false := by
    rcases tasks with _ | ⟨u, rest⟩
    · simp at hti
    · rfl
  have hbody : schedule wd hol tasks deps ps =
      rollup_summary_tasks wd hol
        (markCritical
          (applyDates tasks (scheduleOrder tasks (deps.filter (depResolvable tasks)))
            (scheduleFwd wd hol tasks (deps.filter (depResolvable tasks)) ps) ps)
          (scheduleOrder tasks (deps.filter (depResolvable tasks)))
          (scheduleFwd wd hol tasks (deps.filter (depResolvable tasks)) ps).es
          (scheduleBwd wd hol tasks (deps.filter (depResolvable tasks)) ps).ls ps) := by
    unfold schedule scheduleCore
    rw [if_neg (by simp [hne]), if_neg (by simp [hef])]
  rw [hbody]
  have hmemM : t.id ∈ scheduleOrder tasks (deps.filter (depResolvable tasks)) :=
    scheduleOrder_mem tasks _ t htmem hs
  obtain ⟨u1, hu1, hfr1, _, _, _⟩ := applyDates_at tasks
    (scheduleOrder tasks (deps.filter (depResolvable tasks)))
    (scheduleFwd wd hol tasks (deps.filter (depResolvable tasks)) ps) ps i t hti
  have h2 : (markCritical
      (applyDates tasks (scheduleOrder tasks (deps.filter (depResolvable tasks)))
        (scheduleFwd wd hol tasks (deps.filter (depResolvable tasks)) ps) ps)
      (scheduleOrder tasks (deps.filter (depResolvable tasks)))
      (scheduleFwd wd hol tasks (deps.filter (depResolvable tasks)) ps).es
      (scheduleBwd wd hol tasks (deps.filter (depResolvable tasks)) ps).ls ps)[i]? = some
        { u1 with is_critical := decide (scheduleLateStart wd hol tasks deps ps t.id -
            scheduleEarlyStart wd hol tasks deps ps t.id ≤ 0) } := by
    rw [markCritical_get?, hu1]
    simp only [Option.map_some']
    rw [if_pos (by simp [hfr1.id, hmemM]), hfr1.id]
    rfl
  have hsum2 : ({ u1 with is_critical := decide (scheduleLateStart wd hol tasks deps ps t.id -
      scheduleEarlyStart wd hol tasks deps ps t.id ≤ 0) } : Task).is_summary = false := by
    show u1.is_summary = false
    rw [hfr1.is_summary]
    exact hs
  have h3 := rollup_get?_nonsummary wd hol _
    (by rw [markCritical_map_id, applyDates_map_id]; exact hnd) i _ h2 hsum2
  refine ⟨_, h3, ?_⟩
  show decide (scheduleLateStart wd hol tasks deps ps t.id -
    scheduleEarlyStart wd hol tasks deps ps t.id ≤ 0) = true ↔ _
  simp only [decide_eq_true_eq]
  omega

/-- C4, witness: in the scenario with the SNET-constrained task 2 and a
manually scheduled task 3, the manual task is covered by the marking
rule: it is not critical, and indeed its late start exceeds its early
start. -/
theorem C4_witness :
    (([taskP, taskQ, taskMan] : List Task).map (fun t => t.id)).Nodup ∧
    ([taskP, taskQ, taskMan] : List Task)[2]? = some taskMan ∧
    taskMan.is_summary = false ∧
    (scheduleFwd DEFAULT_WORKING_DAYS [] [taskP, taskQ, taskMan]
      ([depPQ].filter (depResolvable [taskP, taskQ, taskMan])) 0).ef.isEmpty = false ∧
    ∃ u : Task,
      (schedule DEFAULT_WORKING_DAYS [] [taskP, taskQ, taskMan] [depPQ] 0)[2]? = some u ∧
      (u.is_critical = true ↔
        scheduleLateStart DEFAULT_WORKING_DAYS [] [taskP, taskQ, taskMan] [depPQ] 0
          taskMan.id ≤
        scheduleEarlyStart DEFAULT_WORKING_DAYS [] [taskP, taskQ, taskMan] [depPQ] 0
          taskMan.id) :=
  ⟨by decide, by decide, by decide, by decide,
    C4_critical_iff DEFAULT_WORKING_DAYS [] [taskP, taskQ, taskMan] [depPQ] 0 (by decide) 2
      taskMan (by decide) (by decide) (by decide)⟩

/-- `updateTask` keeps the length. -/
theorem updateTask_length (state : List Task) (sid : Int) (nt : Task) :
    (updateTask state sid nt).length = state.length := by
  unfold updateTask
  rw [List.length_map]

/-- A rollup step keeps the length. -/
theorem rollupStep_length (wd hol : List Int) (state : List Task) (sid : Int) :
    (rollupStep wd hol state sid).length = state.length := by
  unfold rollupStep
  rcases taskMap state sid with _ | summary
  · rfl
  · dsimp only
    split_ifs
    · rfl
    · exact updateTask_length state sid _

/-- The whole rollup keeps the length. -/
theorem rollup_length (wd hol : List Int) (state : List Task) :
    (rollup_summary_tasks wd hol state).length = state.length := by
  unfold rollup_summary_tasks
  generalize (sortByLevelDesc (state.filter (fun t => t.is_summary))).map (fun t => t.id) = ids
  induction ids generalizing state with
  | nil => rfl
  | cons sid rest ih =>
    rw [List.foldl_cons]
    rw [ih (rollupStep wd hol state sid)]
    exact rollupStep_length wd hol state sid

/-- `schedule` keeps the length of the task list. -/
theorem schedule_length (wd hol : List Int) (tasks : List Task) (deps : List Dependency)
    (ps : Int) : (schedule wd hol tasks deps ps).length = tasks.length := by
  rcases schedule_eq_cases wd hol tasks deps ps with hcase | hcase | hcase <;> rw [hcase]
  · rw [applyDates]
    rw [List.length_map]
  · rw [rollup_length, markCritical, List.length_map, applyDates, List.length_map]

/-- A summary task manually scheduled by the caller, with caller dates. -/
def taskS : Task := { id := 1, is_summary := true, manual_scheduling := true,
                      start_date := some 100, end_date := some 100 }

/-- A child of `taskS`. -/
def taskChild : Task := { id := 2, parent_id := some 1, duration := 1 }

/-- C6, counterexample.  The summary rollup overwrites the dates of a
summary task from its children regardless of `manual_scheduling`: the
manual summary's caller-set start (day 100) becomes day 0. -/
theorem C6_counterexample :
    (schedule DEFAULT_WORKING_DAYS [] [taskS, taskChild] [] 0).map (fun t => t.start_date) =
      [some 0, some 0] ∧ (some (0 : Int) : Option Int) ≠ some 100 := by
  decide

/-- C6, amended.  `schedule` (on duplicate-free ids) never adds or
removes tasks and mutates only derived fields: every task keeps its id,
name, wbsLevel, wbs, parentId, isSummary, isMilestone, manualScheduling,
constraint and baseline fields; a manual-scheduling task that is not a
summary keeps its dates (a manual summary's dates can be overwritten by
the rollup); and a non-summary task keeps its duration and progress. -/
theorem C6_schedule_frame (wd hol : List Int) (tasks : List Task) (deps : List Dependency)
    (ps : Int) (hnd : (tasks.map (fun t => t.id)).Nodup) :
    (schedule wd hol tasks deps ps).length = tasks.length ∧
    ∀ (i : Nat) (t u : Task), tasks[i]? = some t →
      (schedule wd hol tasks deps ps)[i]? = some u →
      FrozenEq u t ∧
      (t.manual_scheduling = true → t.is_summary = false →
        u.start_date = t.start_date ∧ u.end_date = t.end_date) ∧
      (t.is_summary = false → u.duration = t.duration ∧ u.progress = t.progress) := by
  refine ⟨schedule_length wd hol tasks deps ps, ?_⟩
  intro i t u hti hui
  rcases schedule_eq_cases wd hol tasks deps ps with hcase | hcase | hcase
  · rw [hcase, hti] at hui
    have : t = u := Option.some_inj.mp hui
    rw [← this]
    exact ⟨frozenEq_refl t, fun _ _ => ⟨rfl, rfl⟩, fun _ => ⟨rfl, rfl⟩⟩
  · rw [hcase] at hui
    obtain ⟨u', hu', hfr, hman, hdur, hprog⟩ := applyDates_at tasks _ _ ps i t hti
    rw [hu'] at hui
    have : u' = u := Option.some_inj.mp hui
    rw [← this]
    exact ⟨hfr, fun hm _ => hman hm, fun _ => ⟨hdur, hprog⟩⟩
  · rw [hcase] at hui
    obtain ⟨u1, hu1, hfr1, hman1, hdur1, hprog1⟩ := applyDates_at tasks _ _ ps i t hti
    obtain ⟨u2, hu2, hfr2, hst2, hen2, hdur2, hprog2⟩ := markCritical_at _ _ _ _ ps i u1 hu1
    have hnd2 : ((markCritical
        (applyDates tasks (scheduleOrder tasks (deps.filter (depResolvable tasks)))
          (scheduleFwd wd hol tasks (deps.filter (depResolvable tasks)) ps) ps)
        (scheduleOrder tasks (deps.filter (depResolvable tasks)))
        (scheduleFwd wd hol tasks (deps.filter (depResolvable tasks)) ps).es
        (scheduleBwd wd hol tasks (deps.filter (depResolvable tasks)) ps).ls ps).map
          (fun t => t.id)).Nodup := by
      rw [markCritical_map_id, applyDates_map_id]
      exact hnd
    have hfr12 : FrozenEq u2 t := frozenEq_trans hfr2 hfr1
    refine ⟨?_, ?_, ?_⟩
    · obtain ⟨u3, hu3, hfr3⟩ := rollup_frozen wd hol _ hnd2 i u2 hu2
      rw [hu3] at hui
      have : u3 = u := Option.some_inj.mp hui
      rw [← this]
      exact frozenEq_trans hfr3 hfr12
    · intro hman hsum
      have hu2sum : u2.is_summary = false := by rw [hfr12.is_summary]; exact hsum
      have huntouched := rollup_get?_nonsummary wd hol _ hnd2 i u2 hu2 hu2sum
      rw [huntouched] at hui
      have : u2 = u := Option.some_inj.mp hui
      rw [← this]
      obtain ⟨h1, h2⟩ := hman1 hman
      exact ⟨hst2.trans h1, hen2.trans h2⟩
    · intro hsum
      have hu2sum : u2.is_summary = false := by rw [hfr12.is_summary]; exact hsum
      have huntouched := rollup_get?_nonsummary wd hol _ hnd2 i u2 hu2 hu2sum
      rw [huntouched] at hui
      have : u2 = u := Option.some_inj.mp hui
      rw [← this]
      exact ⟨hdur2.trans hdur1, hprog2.trans hprog1⟩

/-- C6, witness: the frame on the three-task scenario. -/
theorem C6_witness :
    (([taskA, taskB, taskC] : List Task).map (fun t => t.id)).Nodup ∧
    (schedule DEFAULT_WORKING_DAYS [] [taskA, taskB, taskC] [depAB, depBC] 0).length =
      ([taskA, taskB, taskC] : List Task).length :=
  ⟨by decide,
    (C6_schedule_frame DEFAULT_WORKING_DAYS [] [taskA, taskB, taskC] [depAB, depBC] 0
      (by decide)).1⟩

/-! ## C3: DFS post-order places successors before their predecessors -/

/-- `before x y l`: some occurrence of `x` precedes an occurrence of `y`
in `l`. -/
def before (x y : Int) (l : List Int) : Prop :=
  ∃ l1 l2, l = l1 ++ y :: l2 ∧ x ∈ l1

/-- `before` survives appending on the right. -/
theorem before_append {x y : Int} {l : List Int} (h : before x y l) (l' : List Int) :
    before x y (l ++ l') := by
  obtain ⟨l1, l2, he, hx⟩ := h
  exact ⟨l1, l2 ++ l', by rw [he]; simp, hx⟩

/-- Everything already in the list is `before` a newly appended element. -/
theorem before_concat {x tid : Int} {l : List Int} (hx : x ∈ l) :
    before x tid (l ++ [tid]) :=
  ⟨l, [], rfl, hx⟩

/-- Reversing the list swaps `before`. -/
theorem before_reverse {x y : Int} {l : List Int} (h : before x y l) :
    before y x l.reverse := by
  obtain ⟨l1, l2, he, hx⟩ := h
  obtain ⟨m1, m2, hm⟩ := List.append_of_mem (List.mem_reverse.mpr hx)
  refine ⟨l2.reverse ++ y :: m1, m2, ?_, by simp⟩
  rw [he]
  simp only [List.reverse_append, List.reverse_cons]
  rw [hm]
  simp

/-- The number of task ids not yet visited, which the DFS fuel must
dominate. -/
def unvis (ids : List Int) (st : DfsSt) : Nat :=
  ids.countP (fun i => decide (i ∉ st.visited))

/-- Growing the visited set cannot increase `unvis`. -/
theorem unvis_mono (ids : List Int) (st st' : DfsSt)
    (h : ∀ x ∈ st.visited, x ∈ st'.visited) : unvis ids st' ≤ unvis ids st := by
  unfold unvis
  apply List.countP_mono_left
  intro a _ ha
  simp only [decide_eq_true_eq] at ha ⊢
  exact fun hc => ha (h a hc)

/-- Marking a fresh task id visited strictly decreases `unvis`. -/
theorem unvis_cons_lt (ids : List Int) (st : DfsSt) (tid : Int)
    (hmem : tid ∈ ids) (hnv : tid ∉ st.visited) :
    unvis ids ⟨tid :: st.visited, st.topo⟩ + 1 ≤ unvis ids st := by
  obtain ⟨a, b, rfl⟩ := List.append_of_mem hmem
  unfold unvis
  rw [List.countP_append, List.countP_append]
  rw [List.countP_cons_of_neg _ _ (by simp)]
  rw [List.countP_cons_of_pos _ _ (by simpa using hnv)]
  have hmono : ∀ l : List Int,
      l.countP (fun i => decide (i ∉ (⟨tid :: st.visited, st.topo⟩ : DfsSt).visited)) ≤
      l.countP (fun i => decide (i ∉ st.visited)) := by
    intro l
    apply List.countP_mono_left
    intro x _ hx
    simp only [decide_eq_true_eq] at hx ⊢
    intro hc
    exact hx (by simp; right; exact hc)
  have h1 := hmono a
  have h2 := hmono b
  omega

/-- The topological-order correctness invariant: the DFS state is
well-formed, visits only task ids, and its post-order list already
places every successor of a finished node before that node. -/
def OrdInv (succsOf : Int → List Int) (ids : List Int) (st : DfsSt) : Prop :=
  DfsInv st ∧ (∀ x ∈ st.visited, x ∈ ids) ∧
    ∀ a ∈ st.topo, ∀ b ∈ succsOf a, before b a st.topo

/-- The DFS ordering theorem.  On a graph whose edges strictly increase
a rank (i.e. an acyclic graph), a DFS pass with enough fuel keeps the
ordering invariant and visits everything it was asked to visit, provided
every currently gray node ranks below every requested root: a finished
node can then never point back into the open call stack, so each node is
appended only after all its successors already appear in the list. -/
theorem visitMany_ord (succsOf : Int → List Int) (ids : List Int) (rank : Int → Int)
    (Hclosed : ∀ a b, b ∈ succsOf a → b ∈ ids)
    (Hrank : ∀ a b, b ∈ succsOf a → rank a < rank b) :
    ∀ (f : Nat) (l : List Int) (st : DfsSt),
      OrdInv succsOf ids st →
      (∀ b ∈ l, b ∈ ids) →
      (∀ g, g ∈ st.visited → g ∉ st.topo → ∀ b ∈ l, rank g < rank b) →
      unvis ids st + 1 ≤ f →
      OrdInv succsOf ids (visitMany succsOf f l st) ∧
      ∀ b ∈ l, b ∈ (visitMany succsOf f l st).visited := by
  intro f
  induction f with
  | zero =>
    intro l st _ _ _ hf
    omega
  | succ f ihf =>
    intro l
    induction l with
    | nil =>
      intro st hinv _ _ _
      exact ⟨hinv, fun b hb => absurd hb (List.not_mem_nil b)⟩
    | cons tid rest ihl =>
      intro st hinv hl hgr hf
      rw [visitMany_succ, List.foldl_cons, ← visitMany_succ]
      by_cases hv : tid ∈ st.visited
      · have hst' : visitStep succsOf f st tid = st := by
          unfold visitStep
          rw [if_pos hv]
        rw [hst']
        have hres := ihl st hinv (fun b hb => hl b (List.mem_cons_of_mem _ hb))
          (fun g hg hgt b hb => hgr g hg hgt b (List.mem_cons_of_mem _ hb)) hf
        refine ⟨hres.1, ?_⟩
        intro b hb
        rcases List.mem_cons.mp hb with he | hm
        · exact (visitMany_ok succsOf (f + 1) rest st).vis b (he ▸ hv)
        · exact hres.2 b hm
      · have hstep_eq : visitStep succsOf f st tid =
            ⟨(visitMany succsOf f (succsOf tid) ⟨tid :: st.visited, st.topo⟩).visited,
             (visitMany succsOf f (succsOf tid) ⟨tid :: st.visited, st.topo⟩).topo ++ [tid]⟩ := by
          unfold visitStep
          rw [if_neg hv]
        have htid_ids : tid ∈ ids := hl tid (by simp)
        have hinv0 : OrdInv succsOf ids ⟨tid :: st.visited, st.topo⟩ := by
          refine ⟨⟨hinv.1.1, fun x hx => List.mem_cons_of_mem tid (hinv.1.2 x hx)⟩, ?_, hinv.2.2⟩
          intro x hx
          rcases List.mem_cons.mp hx with he | hm
          · exact he ▸ htid_ids
          · exact hinv.2.1 x hm
        have hgr0 : ∀ g, g ∈ (⟨tid :: st.visited, st.topo⟩ : DfsSt).visited →
            g ∉ (⟨tid :: st.visited, st.topo⟩ : DfsSt).topo →
            ∀ b ∈ succsOf tid, rank g < rank b := by
          intro g hg hgt b hb
          rcases List.mem_cons.mp hg with he | hm
          · exact he ▸ Hrank tid b hb
          · exact lt_trans (hgr g hm hgt tid (by simp)) (Hrank tid b hb)
        have hfuel0 : unvis ids ⟨tid :: st.visited, st.topo⟩ + 1 ≤ f := by
          have := unvis_cons_lt ids st tid htid_ids hv
          omega
        obtain ⟨hinv1, hsuccvis⟩ := ihf (succsOf tid) ⟨tid :: st.visited, st.topo⟩ hinv0
          (fun b hb => Hclosed tid b hb) hgr0 hfuel0
        have hok1 := visitMany_ok succsOf f (succsOf tid) ⟨tid :: st.visited, st.topo⟩
        have hgray_tid :
            tid ∈ (visitMany succsOf f (succsOf tid) ⟨tid :: st.visited, st.topo⟩).visited ∧
            tid ∉ (visitMany succsOf f (succsOf tid) ⟨tid :: st.visited, st.topo⟩).topo := by
          apply (hok1.gray tid).mpr
          exact ⟨by simp, fun hc => hv (hinv.1.2 tid hc)⟩
        have hst'inv : OrdInv succsOf ids
            ⟨(visitMany succsOf f (succsOf tid) ⟨tid :: st.visited, st.topo⟩).visited,
             (visitMany succsOf f (succsOf tid) ⟨tid :: st.visited, st.topo⟩).topo ++ [tid]⟩ := by
          refine ⟨⟨?_, ?_⟩, hinv1.2.1, ?_⟩
          · rw [List.nodup_append]
            refine ⟨hinv1.1.1, List.nodup_singleton tid, fun a ha hb => ?_⟩
            simp at hb
            exact hgray_tid.2 (hb ▸ ha)
          · intro x hx
            rcases List.mem_append.mp hx with h1 | h2
            · exact hinv1.1.2 x h1
            · simp at h2
              exact h2 ▸ hgray_tid.1
          · intro a ha b hb
            rcases List.mem_append.mp ha with h1 | h2
            · exact before_append (hinv1.2.2 a h1 b hb) [tid]
            · simp at h2
              subst h2
              have hbvis := hsuccvis b hb
              have hbtopo :
                  b ∈ (visitMany succsOf f (succsOf a) ⟨a :: st.visited, st.topo⟩).topo := by
                by_contra hc
                have hbgray := (hok1.gray b).mp ⟨hbvis, hc⟩
                rcases List.mem_cons.mp hbgray.1 with he | hm
                · have := Hrank a b hb
                  rw [he] at this
                  exact absurd this (lt_irrefl _)
                · have h1 := hgr b hm hbgray.2 a (by simp)
                  have h2 := Hrank a b hb
                  omega
              exact before_concat hbtopo
        have hgr' : ∀ g,
            g ∈ (visitMany succsOf f (succsOf tid) ⟨tid :: st.visited, st.topo⟩).visited →
            g ∉ (visitMany succsOf f (succsOf tid) ⟨tid :: st.visited, st.topo⟩).topo ++ [tid] →
            ∀ b ∈ rest, rank g < rank b := by
          intro g hg hgt b hb
          have hg1 : g ∉ (visitMany succsOf f (succsOf tid) ⟨tid :: st.visited, st.topo⟩).topo :=
            fun hc => hgt (List.mem_append_left _ hc)
          have hg2 : ¬ g = tid := fun he => hgt (by simp [he])
          have hgray := (hok1.gray g).mp ⟨hg, hg1⟩
          rcases List.mem_cons.mp hgray.1 with he | hm
          · exact absurd he hg2
          · exact hgr g hm hgray.2 b (List.mem_cons_of_mem _ hb)
        have hfuel' : unvis ids
            (⟨(visitMany succsOf f (succsOf tid) ⟨tid :: st.visited, st.topo⟩).visited,
              (visitMany succsOf f (succsOf tid) ⟨tid :: st.visited, st.topo⟩).topo ++ [tid]⟩ :
              DfsSt) + 1 ≤ f + 1 := by
          have h1 : unvis ids
              (⟨(visitMany succsOf f (succsOf tid) ⟨tid :: st.visited, st.topo⟩).visited,
                (visitMany succsOf f (succsOf tid) ⟨tid :: st.visited, st.topo⟩).topo ++ [tid]⟩ :
                DfsSt) ≤ unvis ids ⟨tid :: st.visited, st.topo⟩ := by
            apply unvis_mono
            intro x hx
            exact hok1.vis x hx
          omega
        rw [hstep_eq]
        have hres := ihl _ hst'inv (fun b hb => hl b (List.mem_cons_of_mem _ hb)) hgr' hfuel'
        refine ⟨hres.1, ?_⟩
        intro b hb
        rcases List.mem_cons.mp hb with he | hm
        · exact (visitMany_ok succsOf (f + 1) rest _).vis b (he ▸ hgray_tid.1)
        · exact hres.2 b hm

/-- The root traversal keeps the ordering invariant: between root calls
the gray set is empty, so the rank condition is vacuous. -/
theorem rootFold_ord (succsOf : Int → List Int) (ids : List Int) (rank : Int → Int)
    (Hclosed : ∀ a b, b ∈ succsOf a → b ∈ ids)
    (Hrank : ∀ a b, b ∈ succsOf a → rank a < rank b) :
    ∀ (ts : List Task) (st : DfsSt) (f : Nat),
      OrdInv succsOf ids st →
      (∀ t ∈ ts, t.id ∈ ids) →
      (∀ x ∈ st.visited, x ∈ st.topo) →
      unvis ids st + 1 ≤ f →
      OrdInv succsOf ids (rootFold succsOf f ts st) := by
  intro ts
  induction ts with
  | nil => intro st f hinv _ _ _; exact hinv
  | cons u rest ih =>
    intro st f hinv hids hgray hf
    show OrdInv succsOf ids
      (rootFold succsOf f rest (if u.is_summary then st else visitF succsOf f st u.id))
    by_cases hs : u.is_summary
    · rw [if_pos hs]
      exact ih st f hinv (fun t ht => hids t (List.mem_cons_of_mem _ ht)) hgray hf
    · rw [if_neg hs]
      have hstep := visitMany_ord succsOf ids rank Hclosed Hrank f [u.id] st hinv
        (by
          intro b hb
          simp at hb
          exact hb ▸ hids u (by simp))
        (fun g hg hgt _ _ => absurd (hgray g hg) hgt)
        hf
      have hok := visitMany_ok succsOf f [u.id] st
      have hgray' : ∀ x ∈ (visitF succsOf f st u.id).visited,
          x ∈ (visitF succsOf f st u.id).topo := by
        intro x hx
        by_contra hc
        have := (hok.gray x).mp ⟨hx, hc⟩
        exact absurd (hgray x this.1) this.2
      have hf' : unvis ids (visitF succsOf f st u.id) + 1 ≤ f := by
        have := unvis_mono ids st (visitF succsOf f st u.id) hok.vis
        omega
      exact ih _ f hstep.1 (fun t ht => hids t (List.mem_cons_of_mem _ ht)) hgray' hf'

/-- In the topological order produced by `schedule`, an edge's
predecessor appears strictly before its successor, provided a rank
certifies the dependency graph acyclic. -/
theorem scheduleOrder_before (tasks : List Task) (rdeps : List Dependency) (rank : Int → Int)
    (Hclosed : ∀ a b, b ∈ succIds rdeps a → b ∈ tasks.map (fun t => t.id))
    (Hrank : ∀ a b, b ∈ succIds rdeps a → rank a < rank b)
    (p s : Int) (hp : p ∈ scheduleOrder tasks rdeps) (hedge : s ∈ succIds rdeps p) :
    before p s (scheduleOrder tasks rdeps) := by
  have h0 : OrdInv (succIds rdeps) (tasks.map (fun t => t.id)) ⟨[], []⟩ := by
    refine ⟨⟨List.nodup_nil, ?_⟩, ?_, ?_⟩
    · intro x hx; exact absurd hx (List.not_mem_nil x)
    · intro x hx; exact absurd hx (List.not_mem_nil x)
    · intro a ha; exact absurd ha (List.not_mem_nil a)
  have hfuel : unvis (tasks.map (fun t => t.id)) ⟨[], []⟩ + 1 ≤ tasks.length + 1 := by
    have h1 : unvis (tasks.map (fun t => t.id)) ⟨[], []⟩ ≤ (tasks.map (fun t => t.id)).length :=
      List.countP_le_length _
    rw [List.length_map] at h1
    omega
  have hroot := rootFold_ord (succIds rdeps) (tasks.map (fun t => t.id)) rank Hclosed Hrank
    tasks ⟨[], []⟩ (tasks.length + 1) h0
    (fun t ht => List.mem_map.mpr ⟨t, ht, rfl⟩)
    (fun x hx => absurd hx (List.not_mem_nil x))
    hfuel
  unfold scheduleOrder topoForward at hp ⊢
  have hp' : p ∈ (rootFold (succIds rdeps) (tasks.length + 1) tasks ⟨[], []⟩).topo :=
    List.mem_reverse.mp hp
  exact before_reverse (hroot.2.2 p hp' s hedge)

/-- The running early-start maximum never decreases. -/
theorem fwdFold_ge_init (wd hol : List Int) (ps : Int) (m : FwdMaps) (task : Task) :
    ∀ (pl : List (Int × String × Int)) (init : Int),
      init ≤ pl.foldl (fun es pe =>
        let candidate := fwdCandidate wd hol ps m task pe
        if candidate > es then candidate else es) init := by
  intro pl
  induction pl with
  | nil => intro init; exact le_refl init
  | cons x rest ih =>
    intro init
    rw [List.foldl_cons]
    have h1 : init ≤ (fun es pe =>
        let candidate := fwdCandidate wd hol ps m task pe
        if candidate > es then candidate else es) init x := by
      dsimp only
      split_ifs with h
      · omega
      · exact le_refl init
    exact le_trans h1 (ih _)

/-- The early-start maximum dominates every predecessor candidate. -/
theorem fwdFold_ge_candidate (wd hol : List Int) (ps : Int) (m : FwdMaps) (task : Task) :
    ∀ (pl : List (Int × String × Int)) (init : Int) (x : Int × String × Int), x ∈ pl →
      fwdCandidate wd hol ps m task x ≤ pl.foldl (fun es pe =>
        let candidate := fwdCandidate wd hol ps m task pe
        if candidate > es then candidate else es) init := by
  intro pl
  induction pl with
  | nil => intro init x hx; exact absurd hx (List.not_mem_nil x)
  | cons y rest ih =>
    intro init x hx
    rw [List.foldl_cons]
    rcases List.mem_cons.mp hx with he | hm
    · subst he
      have h1 : fwdCandidate wd hol ps m task x ≤ (fun es pe =>
          let candidate := fwdCandidate wd hol ps m task pe
          if candidate > es then candidate else es) init x := by
        dsimp only
        split_ifs with h
        · exact le_refl _
        · omega
      exact le_trans h1 (fwdFold_ge_init wd hol ps m task rest _)
    · exact ih _ x hm

/-- Every predecessor candidate bounds `earlyStartRaw` from below. -/
theorem earlyStartRaw_ge (wd hol : List Int) (ps : Int) (m : FwdMaps) (task : Task)
    (pl : List (Int × String × Int)) (x : Int × String × Int) (hx : x ∈ pl) :
    fwdCandidate wd hol ps m task x ≤ earlyStartRaw wd hol ps m task pl := by
  unfold earlyStartRaw
  exact fwdFold_ge_candidate wd hol ps m task pl ps x hx

/-- Without an MSO constraint, applying the constraint never lowers the
early start (SNET only raises it). -/
theorem applyConstraint_ge (task : Task) (es0 : Int)
    (hmso : ¬ (task.constraint_type = some "MSO" ∧ task.constraint_date ≠ none)) :
    es0 ≤ applyConstraint task es0 := by
  unfold applyConstraint
  rcases hct : task.constraint_type with _ | ct <;>
    rcases hcd : task.constraint_date with _ | cd
  · exact le_refl es0
  · exact le_refl es0
  · exact le_refl es0
  · dsimp only
    have hnotmso : ¬ ct = "MSO" := by
      intro hc
      exact hmso ⟨by rw [hct, hc], by rw [hcd]; simp⟩
    by_cases hsnet : ct = "SNET"
    · rw [if_pos hsnet]
      split_ifs with h
      · omega
      · exact le_refl es0
    · rw [if_neg hsnet, if_neg hnotmso]

/-- The FS candidate formula. -/
theorem fwdCandidate_fs (wd hol : List Int) (ps : Int) (m : FwdMaps) (task : Task)
    (pid lag : Int) :
    fwdCandidate wd hol ps m task (pid, "FS", lag) =
      add_working_days (dictGetD m.ef pid ps) (lag + 1) wd hol := by
  unfold fwdCandidate
  dsimp only
  rw [if_pos rfl]

/-- A task with an MSO (must-start-on) constraint on the project start
day, although its 5-day predecessor finishes later. -/
def taskR : Task := { id := 2, duration := 1,
                      constraint_type := some "MSO", constraint_date := some 0 }

/-- A 5-day predecessor of `taskR`. -/
def taskPP : Task := { id := 1, duration := 5 }

/-- FS dependency from `taskPP` to `taskR`. -/
def depPR : Dependency := { predecessor_id := 1, successor_id := 2 }

/-- C3, counterexample.  An MSO constraint overrides the predecessor
candidates: the successor starts on day 0 although
`addWorkingDays(predecessor.end, lag+1)` is day 4, so the FS inequality
fails for a resolvable FS dependency. -/
theorem C3_counterexample :
    (schedule DEFAULT_WORKING_DAYS [] [taskPP, taskR] [depPR] 0).map
      (fun t => (t.start_date, t.end_date)) = [(some 0, some 4), (some 0, some 0)] ∧
    ¬ (add_working_days 4 (0 + 1) DEFAULT_WORKING_DAYS [] ≤ 0) := by
  decide

/-- C3, amended.  For every input with duplicate-free ids and an acyclic
resolvable dependency graph (witnessed by a rank that strictly increases
along resolvable edges), every FS dependency whose predecessor and
successor are non-manual, non-summary tasks, the successor not carrying
an MSO constraint, satisfies
`successor.startDate ≥ addWorkingDays(predecessor.endDate, lag + 1)`. -/
theorem C3_fs_dependency (wd hol : List Int) (tasks : List Task) (deps : List Dependency)
    (ps : Int) (rank : Int → Int)
    (hnd : (tasks.map (fun t => t.id)).Nodup)
    (hrank : ∀ d ∈ deps, depResolvable tasks d = true →
      rank d.predecessor_id < rank d.successor_id)
    (d : Dependency) (hd : d ∈ deps) (hFS : d.dep_type = "FS")
    (i j : Nat) (p s : Task)
    (hpi : tasks[i]? = some p) (hsj : tasks[j]? = some s)
    (hpid : p.id = d.predecessor_id) (hsid : s.id = d.successor_id)
    (hpm : p.manual_scheduling = false) (hps : p.is_summary = false)
    (hsm : s.manual_scheduling = false) (hss : s.is_summary = false)
    (hmso : ¬ (s.constraint_type = some "MSO" ∧ s.constraint_date ≠ none)) :
    ∃ (u v : Task) (e sv : Int),
      (schedule wd hol tasks deps ps)[i]? = some u ∧
      (schedule wd hol tasks deps ps)[j]? = some v ∧
      u.end_date = some e ∧ v.start_date = some sv ∧
      add_working_days e (d.lag + 1) wd hol ≤ sv := by
  have hpmem : p ∈ tasks := List.getElem?_mem hpi
  have hsmem : s ∈ tasks := List.getElem?_mem hsj
  have hres : depResolvable tasks d = true := by
    unfold depResolvable
    rw [Bool.and_eq_true]
    constructor
    · exact List.any_eq_true.mpr ⟨p, hpmem, by simp [hpid]⟩
    · exact List.any_eq_true.mpr ⟨s, hsmem, by simp [hsid]⟩
  have hdR : d ∈ (deps.filter (depResolvable tasks)) := List.mem_filter.mpr ⟨hd, hres⟩
  have Hclosed : ∀ a b, b ∈ succIds (deps.filter (depResolvable tasks)) a → b ∈ tasks.map (fun t => t.id) := by
    intro a b hb
    rcases List.mem_map.mp hb with ⟨e, he, rfl⟩
    rcases List.mem_map.mp he with ⟨d', hd', hde⟩
    rcases List.mem_filter.mp hd' with ⟨hd'', _⟩
    rcases List.mem_filter.mp hd'' with ⟨_, hres'⟩
    unfold depResolvable at hres'
    rw [Bool.and_eq_true] at hres'
    obtain ⟨t, ht, hid⟩ := List.any_eq_true.mp hres'.2
    simp only [beq_iff_eq] at hid
    rw [← hde]
    exact List.mem_map.mpr ⟨t, ht, by simp [hid]⟩
  have Hrank : ∀ a b, b ∈ succIds (deps.filter (depResolvable tasks)) a → rank a < rank b := by
    intro a b hb
    rcases List.mem_map.mp hb with ⟨e, he, rfl⟩
    rcases List.mem_map.mp he with ⟨d', hd', hde⟩
    rcases List.mem_filter.mp hd' with ⟨hd'', hpred⟩
    rcases List.mem_filter.mp hd'' with ⟨hdeps', hres'⟩
    have h1 := hrank d' hdeps' hres'
    simp only [beq_iff_eq] at hpred
    rw [← hde]
    dsimp only
    rw [← hpred]
    exact h1
  have hedge : s.id ∈ succIds (deps.filter (depResolvable tasks)) p.id := by
    apply List.mem_map.mpr
    refine ⟨(d.successor_id, d.dep_type, d.lag), ?_, by simp [hsid]⟩
    apply List.mem_map.mpr
    exact ⟨d, List.mem_filter.mpr ⟨hdR, by simp [hpid]⟩, rfl⟩
  have hp_order : p.id ∈ scheduleOrder tasks (deps.filter (depResolvable tasks)) :=
    scheduleOrder_mem tasks _ p hpmem hps
  obtain ⟨m1, m2, hORD, hpm1⟩ :=
    scheduleOrder_before tasks (deps.filter (depResolvable tasks)) rank Hclosed Hrank p.id s.id hp_order hedge
  have hnodupO := scheduleOrder_nodup tasks (deps.filter (depResolvable tasks))
  rw [hORD, List.nodup_append] at hnodupO
  have hs_not_m2 : s.id ∉ m2 := (List.nodup_cons.mp hnodupO.2.1).1
  have hp_not : p.id ∉ s.id :: m2 := hnodupO.2.2 hpm1
  have hp_ne_s : ¬ p.id = s.id := fun he => hp_not (by simp [he])
  have hp_not_m2 : p.id ∉ m2 := fun hc => hp_not (List.mem_cons_of_mem _ hc)
  have hfinal_eq : scheduleFwd wd hol tasks (deps.filter (depResolvable tasks)) ps =
      m2.foldl (forwardStep wd hol ps (taskMap tasks) (predEntries (deps.filter (depResolvable tasks)))) ((forwardStep wd hol ps (taskMap tasks) (predEntries (deps.filter (depResolvable tasks)))) (m1.foldl (forwardStep wd hol ps (taskMap tasks) (predEntries (deps.filter (depResolvable tasks)))) ⟨[], []⟩) s.id) := by
    unfold scheduleFwd runForward
    rw [hORD, List.foldl_append, List.foldl_cons]
  obtain ⟨esp, hesp, hefp⟩ := scheduleFwd_at wd hol tasks (deps.filter (depResolvable tasks)) ps p hnd hpmem hps hpm
  have hEFp_m1 : dictGet? (m1.foldl (forwardStep wd hol ps (taskMap tasks) (predEntries (deps.filter (depResolvable tasks)))) ⟨[], []⟩).ef p.id = some (fwdEfVal wd hol p esp) := by
    have h1 := hefp
    rw [hfinal_eq] at h1
    rw [(foldForward_get?_stable wd hol ps (taskMap tasks)
      (predEntries (deps.filter (depResolvable tasks))) m2 _ p.id hp_not_m2).2] at h1
    rw [(forwardStep_get?_ne wd hol ps (taskMap tasks)
      (predEntries (deps.filter (depResolvable tasks))) _ s.id p.id hp_ne_s).2] at h1
    exact h1
  have hsval := forwardStep_auto wd hol ps (taskMap tasks)
    (predEntries (deps.filter (depResolvable tasks))) (m1.foldl (forwardStep wd hol ps (taskMap tasks) (predEntries (deps.filter (depResolvable tasks)))) ⟨[], []⟩) s.id s (taskMap_eq tasks hnd s hsmem) hsm
  have hES_s : dictGet? (scheduleFwd wd hol tasks (deps.filter (depResolvable tasks)) ps).es s.id =
      some (fwdEsVal wd hol ps (m1.foldl (forwardStep wd hol ps (taskMap tasks) (predEntries (deps.filter (depResolvable tasks)))) ⟨[], []⟩) s (predEntries (deps.filter (depResolvable tasks)) s.id)) := by
    rw [hfinal_eq]
    rw [(foldForward_get?_stable wd hol ps (taskMap tasks)
      (predEntries (deps.filter (depResolvable tasks))) m2 _ s.id hs_not_m2).1]
    exact hsval.1
  have hcand_mem : ((p.id, "FS", d.lag) : Int × String × Int) ∈ predEntries (deps.filter (depResolvable tasks)) s.id := by
    apply List.mem_map.mpr
    refine ⟨d, List.mem_filter.mpr ⟨hdR, by simp [hsid]⟩, ?_⟩
    dsimp only
    rw [hpid, hFS]
  obtain ⟨esp2, hesp2, hresP⟩ := schedule_at_auto wd hol tasks deps ps hnd i p hpi hpm hps
  obtain ⟨ess2, hess2, hresS⟩ := schedule_at_auto wd hol tasks deps ps hnd j s hsj hsm hss
  refine ⟨_, _, fwdEfVal wd hol p esp2, ess2, hresP, hresS, rfl, rfl, ?_⟩
  have he1 : esp2 = esp := Option.some_inj.mp (hesp2.symm.trans hesp)
  have he2 : ess2 = fwdEsVal wd hol ps (m1.foldl (forwardStep wd hol ps (taskMap tasks) (predEntries (deps.filter (depResolvable tasks)))) ⟨[], []⟩) s (predEntries (deps.filter (depResolvable tasks)) s.id) :=
    Option.some_inj.mp (hess2.symm.trans hES_s)
  rw [he1, he2]
  have hgetD : dictGetD (m1.foldl (forwardStep wd hol ps (taskMap tasks) (predEntries (deps.filter (depResolvable tasks)))) ⟨[], []⟩).ef p.id ps = fwdEfVal wd hol p esp := by
    unfold dictGetD
    rw [hEFp_m1]
    rfl
  have hb1 : add_working_days (fwdEfVal wd hol p esp) (d.lag + 1) wd hol ≤
      earlyStartRaw wd hol ps (m1.foldl (forwardStep wd hol ps (taskMap tasks) (predEntries (deps.filter (depResolvable tasks)))) ⟨[], []⟩) s (predEntries (deps.filter (depResolvable tasks)) s.id) := by
    rw [← hgetD, ← fwdCandidate_fs]
    exact earlyStartRaw_ge wd hol ps (m1.foldl (forwardStep wd hol ps (taskMap tasks) (predEntries (deps.filter (depResolvable tasks)))) ⟨[], []⟩) s (predEntries (deps.filter (depResolvable tasks)) s.id) _ hcand_mem
  have hb2 := applyConstraint_ge s
    (earlyStartRaw wd hol ps (m1.foldl (forwardStep wd hol ps (taskMap tasks) (predEntries (deps.filter (depResolvable tasks)))) ⟨[], []⟩) s (predEntries (deps.filter (depResolvable tasks)) s.id)) hmso
  unfold fwdEsVal
  exact le_trans hb1 hb2

/-- A second plain 1-day task for the C3 witness. -/
def taskW : Task := { id := 2 }

/-- C3, witness: the concrete FS chain task 1 → task 2 with identity
rank, where the scheduled dates satisfy the FS inequality. -/
theorem C3_witness :
    (([taskP, taskW] : List Task).map (fun t => t.id)).Nodup ∧
    (∀ d ∈ ([depPQ] : List Dependency), depResolvable [taskP, taskW] d = true →
      (fun x : Int => x) d.predecessor_id < (fun x : Int => x) d.successor_id) ∧
    ∃ (u v : Task) (e sv : Int),
      (schedule DEFAULT_WORKING_DAYS [] [taskP, taskW] [depPQ] 0)[0]? = some u ∧
      (schedule DEFAULT_WORKING_DAYS [] [taskP, taskW] [depPQ] 0)[1]? = some v ∧
      u.end_date = some e ∧ v.start_date = some sv ∧
      add_working_days e (depPQ.lag + 1) DEFAULT_WORKING_DAYS [] ≤ sv :=
  ⟨by decide, by decide,
    C3_fs_dependency DEFAULT_WORKING_DAYS [] [taskP, taskW] [depPQ] 0 (fun x => x)
      (by decide) (by decide) depPQ (by decide) (by decide) 0 1 taskP taskW
      (by decide) (by decide) (by decide) (by decide) (by decide) (by decide)
      (by decide) (by decide) (by decide)⟩

end Bokmal
